import Mathlib

/-!
# Verification of the VXLAN+OSPF simulator core

A shallow embedding of the simulator's core modules (`topology.py`,
`ospf.py`, `vxlan.py`, `simulate.py`) together with proofs of the
specification's claims about them.

Python dictionaries are modelled as insertion-ordered association lists
(`dictInsert` overwrites in place, keeping the original position, exactly
as CPython dicts do), Python sets as duplicate-free lists built with
`setAdd`, and the `networkx.Graph` used by the topology module as a pair
of a vertex list and an undirected weighted edge list with the same
`add_node` / `add_edge` semantics (`add_edge` silently inserts missing
endpoints and overwrites the attributes of an existing edge).
-/

namespace VxlanOspf

/-- Insertion-ordered dictionary update: overwrite in place if the key is
present, otherwise append (CPython dict semantics). -/
def dictInsert {κ β : Type} [DecidableEq κ] (d : List (κ × β)) (k : κ) (v : β) :
    List (κ × β) :=
  if d.any (fun kv => kv.1 = k) then
    d.map (fun kv => if kv.1 = k then (k, v) else kv)
  else d ++ [(k, v)]

/-- Dictionary lookup (first entry with the given key). -/
def dictGet? {κ β : Type} [DecidableEq κ] : List (κ × β) → κ → Option β
  | [], _ => none
  | kv :: d, k => if kv.1 = k then some kv.2 else dictGet? d k

/-- In-place modification of an existing entry (Python's
`d[k].field = ...` on a mutable dictionary value). Missing keys are left
alone. -/
def dictModify {κ β : Type} [DecidableEq κ] (d : List (κ × β)) (k : κ) (f : β → β) :
    List (κ × β) :=
  d.map (fun kv => if kv.1 = k then (k, f kv.2) else kv)

/-- Python set `add`: no-op when the element is already present. -/
def setAdd {α : Type} [DecidableEq α] (s : List α) (x : α) : List α :=
  if x ∈ s then s else s ++ [x]

/-! ## The `networkx.Graph` model

`topology.py` stores the fabric in a `networkx.Graph`.  The operations the
simulator uses are vertex insertion (`add_node`), undirected weighted edge
insertion (`add_edge(a, b, cost=c)`, which also inserts missing endpoints
and overwrites the `cost` attribute of an existing edge between the same
unordered pair), vertex membership, vertex iteration, neighbor iteration
and edge-attribute lookup. -/

/-- The underlying undirected weighted graph: vertex list in insertion
order and edge list, one entry per unordered endpoint pair. -/
structure Graph where
  nodes : List String
  edges : List (String × String × Nat)
  deriving Repr, DecidableEq

/-- `networkx.Graph.add_node`. -/
def Graph.addNodeG (g : Graph) (n : String) : Graph :=
  if n ∈ g.nodes then g else { g with nodes := g.nodes ++ [n] }

/-- Whether the stored edge `e` joins the unordered pair `{a, b}`. -/
def edgeMatches (e : String × String × Nat) (a b : String) : Bool :=
  (e.1 = a && e.2.1 = b) || (e.1 = b && e.2.1 = a)

/-- `networkx.Graph.add_edge(a, b, cost := c)`: inserts missing endpoints
as vertices and overwrites the cost of an existing `{a, b}` edge. -/
def Graph.addEdgeG (g : Graph) (a b : String) (c : Nat) : Graph :=
  let g1 := (g.addNodeG a).addNodeG b
  if g1.edges.any (fun e => edgeMatches e a b) then
    { g1 with
      edges := g1.edges.map (fun e => if edgeMatches e a b then (e.1, e.2.1, c) else e) }
  else { g1 with edges := g1.edges ++ [(a, b, c)] }

/-- Adjacency of a vertex: each incident edge contributes the opposite
endpoint together with the edge cost. -/
def Graph.adj (g : Graph) (u : String) : List (String × Nat) :=
  g.edges.filterMap (fun e =>
    if e.1 = u then some (e.2.1, e.2.2)
    else if e.2.1 = u then some (e.1, e.2.2) else none)

/-- Edge existence between an unordered pair. -/
def Graph.hasEdge (g : Graph) (u v : String) : Bool :=
  g.edges.any (fun e => edgeMatches e u v)

/-- The stored cost of the `{u, v}` edge (`graph[u][v]["cost"]`);
defaults to `0` when the edge is absent, in which case it is never used. -/
def Graph.edgeCost (g : Graph) (u v : String) : Nat :=
  match g.edges.find? (fun e => edgeMatches e u v) with
  | some e => e.2.2
  | none => 0

/-- Well-formedness of a graph state: vertex list duplicate-free, every
edge endpoint a vertex, and at most one edge per unordered pair.  Every
graph reachable through `addNodeG`/`addEdgeG` from the empty graph
satisfies this. -/
def Graph.Wf (g : Graph) : Prop :=
  g.nodes.Nodup ∧
  (∀ e ∈ g.edges, e.1 ∈ g.nodes ∧ e.2.1 ∈ g.nodes) ∧
  g.edges.Pairwise (fun e e' => ¬ (edgeMatches e' e.1 e.2.1 = true))

instance (g : Graph) : Decidable g.Wf := by
  unfold Graph.Wf
  infer_instance

/-! ## `ospf.py` -/

/-- A settled entry of the shortest-path computation: destination node,
the computed shortest path from the source (as the vertex list networkx's
`single_source_dijkstra_path` returns), and its total cost. -/
abbrev SpfEntry := String × List String × Nat

/-- The nodes already settled. -/
def settledHas (settled : List SpfEntry) (v : String) : Bool :=
  settled.any (fun e => e.1 = v)

/-- One-step extensions of the settled region: every edge from a settled
node to an unsettled node yields a candidate path. -/
def spfCandidates (g : Graph) (settled : List SpfEntry) : List SpfEntry :=
  settled.flatMap (fun e =>
    (g.adj e.1).filterMap (fun vw =>
      if settledHas settled vw.1 then none
      else some (vw.1, e.2.1 ++ [vw.1], e.2.2 + vw.2)))

/-- The candidate of minimum tentative cost (first minimum). -/
def pickMin : List SpfEntry → Option SpfEntry
  | [] => none
  | c :: cs => some (cs.foldl (fun best x => if x.2.2 < best.2.2 then x else best) c)

/-- The main Dijkstra loop: repeatedly settle a minimum-cost candidate.
`fuel` bounds the number of iterations; `Graph.nodes.length` iterations
always suffice to reach saturation. -/
def dijkstraLoop (g : Graph) : Nat → List SpfEntry → List SpfEntry
  | 0, settled => settled
  | fuel + 1, settled =>
      match pickMin (spfCandidates g settled) with
      | none => settled
      | some e => dijkstraLoop g fuel (settled ++ [e])

/-- Dijkstra single-source shortest paths with path reconstruction, the
computation `ospf.compute_spf_for_node` obtains from
`nx.single_source_dijkstra_path` / `..._path_length` (weight `"cost"`).
Returns one entry per reachable node (the source included, with path
`[s]` and cost `0`). -/
def dijkstra (g : Graph) (s : String) : List SpfEntry :=
  if s ∈ g.nodes then dijkstraLoop g g.nodes.length [(s, [s], 0)] else []

/-- `ospf.compute_spf_for_node`: routing table mapping each reachable
destination other than the source to `(next_hop, cost)`, where `next_hop`
is `path[1]` for multi-hop paths and the destination itself otherwise. -/
def compute_spf_for_node (g : Graph) (start_node : String) :
    List (String × String × Nat) :=
  (dijkstra g start_node).filterMap (fun e =>
    if start_node = e.1 then none
    else some (e.1, e.2.1.getD 1 e.1, e.2.2))

/-- Lookup in a routing table (`rtab[dest]`). -/
def rtGet? (rt : List (String × String × Nat)) (dest : String) :
    Option (String × Nat) :=
  (rt.find? (fun e => e.1 = dest)).map (fun e => e.2)

/-- `ospf.install_routes_for_all`: one routing table per graph node. -/
def install_routes_for_all (g : Graph) :
    List (String × List (String × String × Nat)) :=
  g.nodes.map (fun n => (n, compute_spf_for_node g n))

/-! ## `topology.py` -/

/-- `topology.Node`. -/
structure Node where
  name : String
  role : String
  loopback : String
  vtep_ip : Option String := none
  routes : List (String × String × Nat) := []
  deriving Repr, DecidableEq

/-- `topology.Link`. -/
structure Link where
  a : String
  b : String
  cost : Nat := 10
  deriving Repr, DecidableEq

/-- `topology.Fabric`: a `networkx` graph plus a registry of nodes. -/
structure Fabric where
  graph : Graph
  nodes : List (String × Node)
  deriving Repr, DecidableEq

/-- `Fabric.__init__` (no parameters): empty graph, empty registry. -/
def Fabric.empty : Fabric := { graph := ⟨[], []⟩, nodes := [] }

/-- `Fabric.add_node`. -/
def Fabric.add_node (f : Fabric) (node : Node) : Fabric :=
  { graph := f.graph.addNodeG node.name,
    nodes := dictInsert f.nodes node.name node }

/-- `Fabric.add_link`: note that, like the source, it does not validate
that the endpoints are registered nodes; `add_edge` silently inserts
missing endpoints as graph vertices. -/
def Fabric.add_link (f : Fabric) (link : Link) : Fabric :=
  { f with graph := f.graph.addEdgeG link.a link.b link.cost }

/-- `f"S{i}"`. -/
def spineName (i : Nat) : String := "S" ++ Nat.repr i

/-- `f"L{i}"`. -/
def leafName (i : Nat) : String := "L" ++ Nat.repr i

/-- `f"10.255.0.{i}"`. -/
def loopback_ip (i : Nat) : String := "10.255.0." ++ Nat.repr i

/-- `f"10.0.0.{i}"`. -/
def vtep_ip (i : Nat) : String := "10.0.0." ++ Nat.repr i

/-- `Fabric.build_spine_leaf(spines, leaves)`. -/
def Fabric.build_spine_leaf (f : Fabric) (spines leaves : Nat) : Fabric :=
  let f1 := (List.range' 1 spines).foldl
    (fun f i => f.add_node
      { name := spineName i, role := "spine", loopback := loopback_ip i }) f
  let f2 := (List.range' 1 leaves).foldl
    (fun f i => f.add_node
      { name := leafName i, role := "leaf", loopback := loopback_ip (i + spines),
        vtep_ip := some (vtep_ip (i + spines)) }) f1
  (List.range' 1 spines).foldl
    (fun f si => (List.range' 1 leaves).foldl
      (fun f li => f.add_link { a := spineName si, b := leafName li, cost := 10 }) f) f2

/-- `Fabric.link_cost`. -/
def Fabric.link_cost (f : Fabric) (a b : String) : Nat :=
  f.graph.edgeCost a b

/-- JSON-like values appearing in the serialized fabric snapshot; `vNull`
is Python's `None`. -/
inductive Value where
  | vStr : String → Value
  | vNull : Value
  | vNat : Nat → Value
  deriving Repr, DecidableEq

/-- An optional string serialized into a record field (`None` ↦ null). -/
def optStrVal : Option String → Value
  | some s => Value.vStr s
  | none => Value.vNull

/-- The serialized form of `Fabric.to_dict()`: the top-level dict has the
two fixed keys `nodes` and `links`, each holding a list of records. -/
structure FabricDict where
  nodes : List (List (String × Value))
  links : List (List (String × Value))
  deriving Repr, DecidableEq

/-- The node record `to_dict` emits for one registered node. -/
def nodeRecord (n : Node) : List (String × Value) :=
  [("name", Value.vStr n.name), ("role", Value.vStr n.role),
   ("loopback", Value.vStr n.loopback), ("vtep_ip", optStrVal n.vtep_ip)]

/-- `Fabric.to_dict`. -/
def Fabric.to_dict (f : Fabric) : FabricDict :=
  { nodes := f.nodes.map (fun kv => nodeRecord kv.2),
    links := f.graph.edges.map (fun e =>
      [("a", Value.vStr e.1), ("b", Value.vStr e.2.1), ("cost", Value.vNat e.2.2)]) }

/-! ## `vxlan.py` -/

/-- `vxlan.VTEP` (the `vnis` set is modelled as a duplicate-free list). -/
structure VTEP where
  name : String
  ip : String
  vnis : List Nat := []
  deriving Repr, DecidableEq

/-- `vxlan.VNI` (the `members` set is modelled as a duplicate-free list). -/
structure VNI where
  id : Nat
  name : String
  members : List String := []
  deriving Repr, DecidableEq

/-- `vxlan.VXLANOverlay`. -/
structure VXLANOverlay where
  vnis : List (Nat × VNI)
  vteps : List (String × VTEP)
  deriving Repr, DecidableEq

/-- `VXLANOverlay.__init__`. -/
def VXLANOverlay.empty : VXLANOverlay := { vnis := [], vteps := [] }

/-- `VXLANOverlay.add_vni`: creates the VNI only when absent. -/
def VXLANOverlay.add_vni (o : VXLANOverlay) (vni_id : Nat) (name : String) :
    VXLANOverlay :=
  if (dictGet? o.vnis vni_id).isSome then o
  else { o with vnis := dictInsert o.vnis vni_id { id := vni_id, name := name } }

/-- The endpoint-creation/update prologue of `attach_vtep`:
create the VTEP if absent, else overwrite its IP. -/
def attachInit (o : VXLANOverlay) (node ip : String) : VXLANOverlay :=
  if (dictGet? o.vteps node).isSome then
    { o with vteps := dictModify o.vteps node (fun v => { v with ip := ip }) }
  else
    { o with vteps := dictInsert o.vteps node { name := node, ip := ip } }

/-- The body of `attach_vtep`'s per-VNI loop: auto-create the VNI, add
the node to its member set, add the id to the VTEP's VNI set. -/
def attachStep (node : String) (o : VXLANOverlay) (vni_id : Nat) : VXLANOverlay :=
  let o2 := o.add_vni vni_id ("VNI-" ++ Nat.repr vni_id)
  let o3 := { o2 with
    vnis := dictModify o2.vnis vni_id (fun v => { v with members := setAdd v.members node }) }
  { o3 with
    vteps := dictModify o3.vteps node (fun v => { v with vnis := setAdd v.vnis vni_id }) }

/-- `VXLANOverlay.attach_vtep`. -/
def VXLANOverlay.attach_vtep (o : VXLANOverlay) (node ip : String)
    (vnis : List Nat) : VXLANOverlay :=
  vnis.foldl (attachStep node) (attachInit o node ip)

/-- The nested index loop of `tunnels_for_vni`: all pairs `(l[i], l[j])`
with `i < j`, in loop order. -/
def pairsOf : List String → List (String × String)
  | [] => []
  | x :: rest => rest.map (fun y => (x, y)) ++ pairsOf rest

/-- Python's string order: lexicographic comparison of the code-point
sequences (non-strict). -/
def strLe (a b : String) : Prop := a.data ≤ b.data

/-- Python's string order, strict. -/
def strLt (a b : String) : Prop := a.data < b.data

instance : DecidableRel strLe := fun a b => inferInstanceAs (Decidable (a.data ≤ b.data))

instance : DecidableRel strLt := fun a b => inferInstanceAs (Decidable (a.data < b.data))

instance : IsTotal String strLe := ⟨fun a b => le_total a.data b.data⟩

instance : IsTrans String strLe := ⟨fun _ _ _ h h' => le_trans h h'⟩

/-- Python `sorted` on a list of strings: the unique permutation of a
duplicate-free list that is sorted by `strLe`. -/
def sortStrings (l : List String) : List String :=
  l.insertionSort strLe

/-- `VXLANOverlay.tunnels_for_vni`. -/
def VXLANOverlay.tunnels_for_vni (o : VXLANOverlay) (vni_id : Nat) :
    List (String × String) :=
  match dictGet? o.vnis vni_id with
  | none => []
  | some v => pairsOf (sortStrings v.members)

/-- `VXLANOverlay.encapsulate`. -/
def VXLANOverlay.encapsulate (_o : VXLANOverlay) (vtep_a vtep_b : VTEP)
    (vni_id : Nat) (payload_desc : String) : List (String × String) :=
  [("description", "VXLAN Encapsulation"),
   ("payload", payload_desc),
   ("vxlan_header", "VNI " ++ Nat.repr vni_id),
   ("outer_udp_header", "UDP Port 4789"),
   ("outer_ip_header", "src=" ++ vtep_a.ip ++ ", dst=" ++ vtep_b.ip)]

/-! ## `simulate.py` -/

/-- `simulate.build_demo_fabric`. -/
def build_demo_fabric : Fabric := Fabric.empty.build_spine_leaf 2 3

/-- `simulate.build_overlay`: attach every leaf with a VTEP IP to VNI
10010. -/
def build_overlay (fabric : Fabric) : VXLANOverlay :=
  let vx := VXLANOverlay.empty.add_vni 10010 "customers-A"
  fabric.nodes.foldl (fun vx kv =>
    match kv.2.vtep_ip with
    | some ip => if kv.2.role = "leaf" then vx.attach_vtep kv.1 ip [10010] else vx
    | none => vx) vx

/-- The consolidated result structure assembled by `simulate.simulate`. -/
structure SimResult where
  topology : FabricDict
  routes : List (String × List (String × String × Nat))
  vnis : List (Nat × VNI)
  vteps : List (String × VTEP)
  tunnels : List (String × String)
  sample : Option (List (String × String))
  deriving Repr, DecidableEq

/-- `simulate.simulate`: the linear orchestration pipeline over the demo
fabric. -/
def simulate : SimResult :=
  let fabric := build_demo_fabric
  let rtab := install_routes_for_all fabric.graph
  let fabric := { fabric with
    nodes := fabric.nodes.map (fun kv =>
      (kv.1, { kv.2 with routes := (dictGet? rtab kv.1).getD [] })) }
  let overlay := build_overlay fabric
  let tunnels := overlay.tunnels_for_vni 10010
  let sample :=
    match tunnels with
    | [] => none
    | (src, dst) :: _ =>
        match dictGet? overlay.vteps src, dictGet? overlay.vteps dst with
        | some sv, some dv =>
            some (overlay.encapsulate sv dv 10010 "L2 frame: MAC A -> MAC B")
        | _, _ => none
  { topology := fabric.to_dict,
    routes := rtab,
    vnis := overlay.vnis,
    vteps := overlay.vteps,
    tunnels := tunnels,
    sample := sample }

/-- Models the Python constructor call `topology.Fabric(num_spines,
num_leaves)` performed by `run_full_simulation`: `Fabric.__init__` takes
no parameters besides `self`, so CPython raises `TypeError` before the
body runs. -/
def fabricCtorCall (args : List Nat) : Except String Fabric :=
  if args.isEmpty then Except.ok Fabric.empty
  else Except.error "TypeError: Fabric() takes no arguments"

/-- `simulate.run_full_simulation`: its first pipeline step is the
two-argument constructor call `topology.Fabric(num_spines, num_leaves)`;
the later steps (`ospf.compute_routing_tables`,
`vxlan.setup_vxlan_overlay`, `vxlan.compute_vxlan_tunnels`,
`vxlan.simulate_encapsulation`, `fabric.get_topology`) name attributes
that do not exist in those modules and would raise `AttributeError` if
ever reached. -/
def run_full_simulation (num_spines num_leaves : Nat) : Except String SimResult :=
  match fabricCtorCall [num_spines, num_leaves] with
  | Except.error e => Except.error e
  | Except.ok _fabric =>
      Except.error "AttributeError: module 'simulator.ospf' has no attribute 'compute_routing_tables'"

/-! ## Paths and shortest distances (the specification side)

A walk from `s` is represented by the list of visited vertices (starting
with `s`) together with its total cost, built up from the single-vertex
walk by appending edges at the end.  Since all costs are non-negative
integers, minimising over walks is the same as minimising over simple
paths. -/

/-- `IsWalk g s v p d`: `p` is a walk in `g` from `s` to `v` whose link
costs sum to `d`. -/
inductive IsWalk (g : Graph) (s : String) : String → List String → Nat → Prop where
  | single : IsWalk g s s [s] 0
  | snoc {u v : String} {p : List String} {d : Nat} :
      IsWalk g s u p d → g.hasEdge u v = true →
      IsWalk g s v (p ++ [v]) (d + g.edgeCost u v)

/-- A vertex is reachable when some walk ends there. -/
def Reachable (g : Graph) (s v : String) : Prop :=
  ∃ p d, IsWalk g s v p d

/-- `d` is the minimum total sum of link costs over all walks from `s`
to `v`, attained by some walk. -/
def IsShortestDist (g : Graph) (s v : String) (d : Nat) : Prop :=
  (∃ p, IsWalk g s v p d) ∧ ∀ p e, IsWalk g s v p e → d ≤ e

/-! ### Bridge lemmas between edge representations -/

theorem edgeMatches_comm (e : String × String × Nat) (a b : String) :
    edgeMatches e a b = edgeMatches e b a := by
  simp only [edgeMatches]
  exact Bool.or_comm _ _

theorem hasEdge_symm (g : Graph) (u v : String) :
    g.hasEdge u v = g.hasEdge v u := by
  simp only [Graph.hasEdge]
  congr 1
  funext e
  exact edgeMatches_comm e u v

theorem edgeCost_symm (g : Graph) (u v : String) :
    g.edgeCost u v = g.edgeCost v u := by
  simp only [Graph.edgeCost]
  have : (fun e => edgeMatches e u v) = (fun e => edgeMatches e v u) := by
    funext e
    exact edgeMatches_comm e u v
  rw [this]

/-- Each adjacency entry comes from an edge joining the unordered pair. -/
theorem adj_mem_elim {g : Graph} {u v : String} {w : Nat}
    (h : (v, w) ∈ g.adj u) :
    ∃ e ∈ g.edges, edgeMatches e u v = true ∧ e.2.2 = w := by
  simp only [Graph.adj, List.mem_filterMap] at h
  obtain ⟨e, he, hmatch⟩ := h
  refine ⟨e, he, ?_⟩
  by_cases h1 : e.1 = u
  · simp only [h1, if_pos rfl] at hmatch
    cases hmatch
    simp [edgeMatches, h1]
  · simp only [if_neg h1] at hmatch
    by_cases h2 : e.2.1 = u
    · simp only [h2, if_pos rfl] at hmatch
      cases hmatch
      simp [edgeMatches, h1, h2]
    · simp [if_neg h2] at hmatch

/-- Any edge joining `{u, v}` yields the adjacency entry
`(v, its cost)`. -/
theorem adj_mem_intro {g : Graph} {u v : String}
    {e : String × String × Nat} (he : e ∈ g.edges)
    (hm : edgeMatches e u v = true) : (v, e.2.2) ∈ g.adj u := by
  simp only [Graph.adj, List.mem_filterMap]
  refine ⟨e, he, ?_⟩
  simp only [edgeMatches, Bool.or_eq_true, Bool.and_eq_true, decide_eq_true_eq] at hm
  rcases hm with ⟨h1, h2⟩ | ⟨h1, h2⟩
  · simp [h1, h2]
  · by_cases h3 : e.1 = u
    · simp only [h3, if_pos rfl]
      rw [h3] at h1
      rw [h1] at h2
      simp [h2]
    · rw [h1] at h3
      simp [h3, h2, h1]

theorem hasEdge_elim {g : Graph} {u v : String}
    (h : g.hasEdge u v = true) :
    ∃ e ∈ g.edges, edgeMatches e u v = true := by
  simpa only [Graph.hasEdge, List.any_eq_true] using h

theorem hasEdge_intro {g : Graph} {u v : String}
    {e : String × String × Nat} (he : e ∈ g.edges)
    (hm : edgeMatches e u v = true) : g.hasEdge u v = true := by
  simp only [Graph.hasEdge, List.any_eq_true]
  exact ⟨e, he, hm⟩

/-- Two edges joining the same unordered pair are related by
`edgeMatches` in either direction. -/
theorem edgeMatches_trans {e e' : String × String × Nat} {u v : String}
    (h : edgeMatches e u v = true) (h' : edgeMatches e' u v = true) :
    edgeMatches e' e.1 e.2.1 = true := by
  simp only [edgeMatches, Bool.or_eq_true, Bool.and_eq_true,
    decide_eq_true_eq] at h h' ⊢
  rcases h with ⟨h1, h2⟩ | ⟨h1, h2⟩ <;> rcases h' with ⟨h3, h4⟩ | ⟨h3, h4⟩ <;>
    subst h1 <;> subst h2 <;> simp [h3, h4]

/-- `edgeMatches e (pair of e')` is symmetric in the two edges. -/
theorem edgeMatches_symm_pair {e e' : String × String × Nat}
    (h : edgeMatches e e'.1 e'.2.1 = true) :
    edgeMatches e' e.1 e.2.1 = true := by
  simp only [edgeMatches, Bool.or_eq_true, Bool.and_eq_true,
    decide_eq_true_eq] at h ⊢
  rcases h with ⟨h1, h2⟩ | ⟨h1, h2⟩ <;> simp [h1, h2]

/-- Under well-formedness the cost recorded on any edge joining `{u, v}`
is `edgeCost u v`. -/
theorem edgeCost_eq_of_matches {g : Graph} (hwf : g.Wf)
    {e : String × String × Nat} {u v : String} (he : e ∈ g.edges)
    (hm : edgeMatches e u v = true) : g.edgeCost u v = e.2.2 := by
  have hex : ∃ x ∈ g.edges, edgeMatches x u v = true := ⟨e, he, hm⟩
  have hsome : (g.edges.find? (fun x => edgeMatches x u v)).isSome := by
    rw [List.find?_isSome]
    simpa using hex
  obtain ⟨e', he'⟩ := Option.isSome_iff_exists.mp hsome
  have he'mem : e' ∈ g.edges := List.mem_of_find?_eq_some he'
  have he'match : edgeMatches e' u v = true := by
    have := List.find?_some he'
    simpa using this
  -- `e` and `e'` both join `{u, v}`; pairwise uniqueness forces them equal
  have heq : e = e' := by
    by_contra hne
    obtain ⟨-, -, hpair⟩ := hwf
    have hsym : Symmetric
        (fun x y : String × String × Nat => ¬ (edgeMatches y x.1 x.2.1 = true)) := by
      intro x y hxy hc
      exact hxy (edgeMatches_symm_pair hc)
    exact hpair.forall hsym he he'mem hne (edgeMatches_trans hm he'match)
  simp only [Graph.edgeCost, he']
  rw [heq]

/-- The adjacency entry for an existing edge carries `edgeCost u v`. -/
theorem adj_of_hasEdge {g : Graph} (hwf : g.Wf) {u v : String}
    (h : g.hasEdge u v = true) : (v, g.edgeCost u v) ∈ g.adj u := by
  obtain ⟨e, he, hm⟩ := hasEdge_elim h
  have := adj_mem_intro he hm
  rwa [edgeCost_eq_of_matches hwf he hm]

/-- Conversely, adjacency entries record edge existence and cost. -/
theorem hasEdge_of_adj {g : Graph} (hwf : g.Wf) {u v : String} {w : Nat}
    (h : (v, w) ∈ g.adj u) :
    g.hasEdge u v = true ∧ g.edgeCost u v = w := by
  obtain ⟨e, he, hm, hw⟩ := adj_mem_elim h
  exact ⟨hasEdge_intro he hm, hw ▸ edgeCost_eq_of_matches hwf he hm⟩

theorem hasEdge_endpoints {g : Graph} (hwf : g.Wf) {u v : String}
    (h : g.hasEdge u v = true) : u ∈ g.nodes ∧ v ∈ g.nodes := by
  obtain ⟨e, he, hm⟩ := hasEdge_elim h
  obtain ⟨-, hend, -⟩ := hwf
  obtain ⟨h1, h2⟩ := hend e he
  simp only [edgeMatches, Bool.or_eq_true, Bool.and_eq_true,
    decide_eq_true_eq] at hm
  rcases hm with ⟨ha, hb⟩ | ⟨ha, hb⟩
  · rw [ha] at h1
    rw [hb] at h2
    exact ⟨h1, h2⟩
  · rw [ha] at h1
    rw [hb] at h2
    exact ⟨h2, h1⟩

/-! ### Structural facts about walks -/

theorem IsWalk.ne_nil {g : Graph} {s v : String} {p : List String} {d : Nat}
    (h : IsWalk g s v p d) : p ≠ [] := by
  induction h with
  | single => simp
  | snoc _ _ _ => simp

theorem IsWalk.head_eq {g : Graph} {s v : String} {p : List String} {d : Nat}
    (h : IsWalk g s v p d) : p.head? = some s := by
  induction h with
  | single => rfl
  | snoc hw _ ih =>
      rw [List.head?_append_of_ne_nil _ hw.ne_nil]
      exact ih

theorem IsWalk.getLast_eq {g : Graph} {s v : String} {p : List String} {d : Nat}
    (h : IsWalk g s v p d) : p.getLast? = some v := by
  cases h with
  | single => rfl
  | snoc hw he => simp

theorem IsWalk.length_ge_two {g : Graph} {s v : String} {p : List String}
    {d : Nat} (h : IsWalk g s v p d) (hne : v ≠ s) : 2 ≤ p.length := by
  cases h with
  | single => exact absurd rfl hne
  | snoc hw he =>
      rename_i u p' d'
      have := hw.ne_nil
      have hlen : 1 ≤ p'.length := by
        cases p' with
        | nil => exact absurd rfl this
        | cons a t => simp
      simp only [List.length_append, List.length_cons, List.length_nil]
      omega

/-- A walk to a vertex other than the source starts `s :: x :: _`. -/
theorem IsWalk.shape {g : Graph} {s v : String} {p : List String} {d : Nat}
    (h : IsWalk g s v p d) (hne : v ≠ s) :
    ∃ x t, p = s :: x :: t := by
  have hlen := h.length_ge_two hne
  have hhead := h.head_eq
  cases p with
  | nil => simp at hhead
  | cons a q =>
      cases q with
      | nil => simp at hlen
      | cons b t =>
          simp only [List.head?_cons, Option.some.injEq] at hhead
          exact ⟨b, t, by rw [hhead]⟩

/-- Either a walk is the trivial one-vertex walk or both of its
endpoints are graph vertices. -/
theorem IsWalk.trivial_or_mem {g : Graph} (hwf : g.Wf) {s v : String}
    {p : List String} {d : Nat} (h : IsWalk g s v p d) :
    (v = s ∧ p = [s] ∧ d = 0) ∨ (s ∈ g.nodes ∧ v ∈ g.nodes) := by
  induction h with
  | single => exact Or.inl ⟨rfl, rfl, rfl⟩
  | snoc hw he ih =>
      obtain ⟨hu, hv⟩ := hasEdge_endpoints hwf he
      rcases ih with ⟨heq, -, -⟩ | ⟨hs, -⟩
      · exact Or.inr ⟨heq ▸ hu, hv⟩
      · exact Or.inr ⟨hs, hv⟩

/-- Concatenation of walks: drop the duplicated middle vertex. -/
theorem IsWalk.append {g : Graph} {a b c : String} {p q : List String}
    {d e : Nat} (h1 : IsWalk g a b p d) (h2 : IsWalk g b c q e) :
    IsWalk g a c (p ++ q.tail) (d + e) := by
  induction h2 with
  | single => simpa using h1
  | snoc hw he ih =>
      rename_i u v q' e'
      have htail : (q' ++ [v]).tail = q'.tail ++ [v] := by
        cases q' with
        | nil => exact absurd rfl hw.ne_nil
        | cons x t => simp
      rw [htail, ← List.append_assoc, ← Nat.add_assoc]
      exact IsWalk.snoc ih he

/-- Reversal of a walk: same endpoints swapped, same cost. -/
theorem IsWalk.reverse {g : Graph} {s v : String} {p : List String} {d : Nat}
    (h : IsWalk g s v p d) : IsWalk g v s p.reverse d := by
  induction h with
  | single => exact IsWalk.single
  | snoc hw he ih =>
      rename_i u v' p' d'
      -- a two-vertex walk `v' → u`, then the reversed prefix from `u`
      have hstep : IsWalk g v' u ([v'] ++ [u]) (0 + g.edgeCost v' u) :=
        IsWalk.snoc IsWalk.single (by rw [hasEdge_symm]; exact he)
      have hcomp := hstep.append ih
      have hlast : p'.getLast? = some u := hw.getLast_eq
      have hne := hw.ne_nil
      have hrev : p'.reverse = u :: p'.reverse.tail := by
        have : p'.reverse.head? = some u := by
          rw [List.head?_reverse]
          exact hlast
        cases hr : p'.reverse with
        | nil => rw [hr] at this; simp at this
        | cons x t =>
            rw [hr] at this
            simp only [List.head?_cons, Option.some.injEq] at this
            simp [hr, this]
      have hlist : (p' ++ [v']).reverse = [v'] ++ ([u] ++ p'.reverse.tail) := by
        rw [List.reverse_append]
        simp only [List.reverse_cons, List.reverse_nil, List.nil_append,
          List.singleton_append, List.cons_append]
        rw [hrev]
        simp

      rw [hlist]
      have hcost : 0 + g.edgeCost v' u + d' = d' + g.edgeCost u v' := by
        rw [edgeCost_symm g v' u]
        omega
      rw [show ([u] ++ p'.reverse.tail) = (u :: p'.reverse.tail) from rfl] at hlist ⊢
      have : ([v'] ++ [u]) ++ (u :: p'.reverse.tail).tail = [v'] ++ (u :: p'.reverse.tail) := by
        simp
      rw [← this, show ([v'] ++ [u]) ++ (u :: p'.reverse.tail).tail
        = [v'] ++ [u] ++ p'.reverse.tail from by simp]
      have hcomp' : IsWalk g v' s ([v'] ++ [u] ++ p'.reverse.tail) (d' + g.edgeCost u v') := by
        rw [← hcost]
        have := hcomp
        rw [hrev] at this
        simpa [List.append_assoc] using this
      exact hcomp'

/-! ### Correctness of the shortest-path computation -/

theorem pickMin_eq_none {l : List SpfEntry} :
    pickMin l = none ↔ l = [] := by
  cases l with
  | nil => simp [pickMin]
  | cons c cs => simp [pickMin]

/-- The fold inside `pickMin` returns an element of `c :: cs` of minimal
recorded cost. -/
theorem pickMin_foldl_spec (cs : List SpfEntry) (c : SpfEntry) :
    (cs.foldl (fun best x => if x.2.2 < best.2.2 then x else best) c) ∈ c :: cs ∧
    (cs.foldl (fun best x => if x.2.2 < best.2.2 then x else best) c).2.2 ≤ c.2.2 ∧
    ∀ x ∈ cs,
      (cs.foldl (fun best x => if x.2.2 < best.2.2 then x else best) c).2.2 ≤ x.2.2 := by
  induction cs generalizing c with
  | nil => exact ⟨List.mem_singleton.mpr rfl, Nat.le_refl _, by simp⟩
  | cons a t ih =>
      simp only [List.foldl_cons]
      by_cases hlt : a.2.2 < c.2.2
      · rw [if_pos hlt]
        obtain ⟨hmem, hle, hall⟩ := ih a
        refine ⟨List.mem_cons_of_mem _ hmem,
          Nat.le_trans hle (Nat.le_of_lt hlt), ?_⟩
        intro x hx
        rcases List.mem_cons.mp hx with h | h
        · subst h
          exact hle
        · exact hall x h
      · rw [if_neg hlt]
        obtain ⟨hmem, hle, hall⟩ := ih c
        refine ⟨?_, hle, ?_⟩
        · rcases List.mem_cons.mp hmem with h | h
          · rw [h]
            exact List.mem_cons_self _ _
          · exact List.mem_cons_of_mem _ (List.mem_cons_of_mem _ h)
        · intro x hx
          rcases List.mem_cons.mp hx with h | h
          · subst h
            exact Nat.le_trans hle (Nat.le_of_not_lt hlt)
          · exact hall x h

theorem pickMin_mem {l : List SpfEntry} {c : SpfEntry}
    (h : pickMin l = some c) : c ∈ l := by
  cases l with
  | nil => simp [pickMin] at h
  | cons a t =>
      simp only [pickMin, Option.some.injEq] at h
      exact h ▸ (pickMin_foldl_spec t a).1

theorem pickMin_le {l : List SpfEntry} {c : SpfEntry}
    (h : pickMin l = some c) : ∀ x ∈ l, c.2.2 ≤ x.2.2 := by
  cases l with
  | nil => simp [pickMin] at h
  | cons a t =>
      simp only [pickMin, Option.some.injEq] at h
      obtain ⟨-, hle, hall⟩ := pickMin_foldl_spec t a
      intro x hx
      rcases List.mem_cons.mp hx with hxa | hxt
      · exact h ▸ hxa ▸ hle
      · exact h ▸ hall x hxt

theorem settledHas_iff {settled : List SpfEntry} {v : String} :
    settledHas settled v = true ↔ ∃ e ∈ settled, e.1 = v := by
  simp [settledHas, List.any_eq_true]

theorem spfCandidates_elim {g : Graph} {settled : List SpfEntry}
    {c : SpfEntry} (h : c ∈ spfCandidates g settled) :
    ∃ e ∈ settled, ∃ w, (c.1, w) ∈ g.adj e.1 ∧
      c.2.1 = e.2.1 ++ [c.1] ∧ c.2.2 = e.2.2 + w ∧
      settledHas settled c.1 = false := by
  simp only [spfCandidates, List.mem_flatMap, List.mem_filterMap] at h
  obtain ⟨e, he, vw, hvw, hcond⟩ := h
  by_cases hset : settledHas settled vw.1
  · simp [hset] at hcond
  · rw [if_neg (by simp [hset])] at hcond
    cases hcond
    exact ⟨e, he, vw.2, by simpa using hvw,
      rfl, rfl, Bool.not_eq_true _ ▸ by simpa using hset⟩

theorem spfCandidates_intro {g : Graph} {settled : List SpfEntry}
    {e : SpfEntry} (he : e ∈ settled) {v : String} {w : Nat}
    (hadj : (v, w) ∈ g.adj e.1) (hv : settledHas settled v = false) :
    (v, e.2.1 ++ [v], e.2.2 + w) ∈ spfCandidates g settled := by
  simp only [spfCandidates, List.mem_flatMap, List.mem_filterMap]
  exact ⟨e, he, (v, w), hadj, by rw [if_neg (by simp [hv])]⟩

/-- The loop invariant: every settled entry records a genuine
minimum-cost walk, the source is settled, settled vertices are graph
vertices, and no vertex is settled twice. -/
structure SpfInv (g : Graph) (s : String) (settled : List SpfEntry) : Prop where
  sound : ∀ e ∈ settled, IsWalk g s e.1 e.2.1 e.2.2 ∧
    ∀ q d, IsWalk g s e.1 q d → e.2.2 ≤ d
  sMem : settledHas settled s = true
  subset : ∀ e ∈ settled, e.1 ∈ g.nodes
  names : (settled.map (fun e => e.1)).Nodup

/-- The chosen minimum candidate's cost is a lower bound on the cost of
every walk that ends outside the settled region. -/
theorem spf_cover {g : Graph} {s : String} {settled : List SpfEntry}
    (hwf : g.Wf) (inv : SpfInv g s settled) {c : SpfEntry}
    (hc : pickMin (spfCandidates g settled) = some c)
    {y : String} {p : List String} {d : Nat} (hw : IsWalk g s y p d)
    (hy : settledHas settled y = false) : c.2.2 ≤ d := by
  induction hw with
  | single => rw [inv.sMem] at hy; cases hy
  | snoc hw' he ih =>
      rename_i u v p' d'
      by_cases hu : settledHas settled u = true
      · obtain ⟨e, hemem, hename⟩ := settledHas_iff.mp hu
        have hmin := (inv.sound e hemem).2 p' d' (hename ▸ hw')
        have hadj : (v, g.edgeCost u v) ∈ g.adj u := adj_of_hasEdge hwf he
        have hcand := spfCandidates_intro hemem (hename ▸ hadj) hy
        have hle := pickMin_le hc _ hcand
        simp only at hle
        rw [hename] at hle
        omega
      · have := ih (Bool.not_eq_true _ ▸ hu)
        omega

/-- Settling the minimum candidate preserves the invariant. -/
theorem spf_step {g : Graph} {s : String} {settled : List SpfEntry}
    (hwf : g.Wf) (inv : SpfInv g s settled) {c : SpfEntry}
    (hc : pickMin (spfCandidates g settled) = some c) :
    SpfInv g s (settled ++ [c]) := by
  have hcmem := pickMin_mem hc
  obtain ⟨e, hemem, w, hadj, hpath, hcost, hunset⟩ := spfCandidates_elim hcmem
  have hedge := hasEdge_of_adj hwf hadj
  have hwalk : IsWalk g s c.1 c.2.1 c.2.2 := by
    have hbase := (inv.sound e hemem).1
    have := IsWalk.snoc hbase hedge.1
    rw [hedge.2] at this
    rw [hpath, hcost]
    exact this
  refine ⟨?_, ?_, ?_, ?_⟩
  · intro x hx
    rcases List.mem_append.mp hx with hx | hx
    · exact inv.sound x hx
    · rcases List.mem_singleton.mp hx with rfl
      refine ⟨hwalk, ?_⟩
      intro q d hq
      exact spf_cover hwf inv hc hq hunset
  · rw [settledHas_iff]
    obtain ⟨e', he', hn⟩ := settledHas_iff.mp inv.sMem
    exact ⟨e', List.mem_append_left _ he', hn⟩
  · intro x hx
    rcases List.mem_append.mp hx with hx | hx
    · exact inv.subset x hx
    · rcases List.mem_singleton.mp hx with rfl
      obtain ⟨-, hend, -⟩ := hwf
      obtain ⟨e0, he0, hm0, -⟩ := adj_mem_elim hadj
      obtain ⟨h1, h2⟩ := hend e0 he0
      simp only [edgeMatches, Bool.or_eq_true, Bool.and_eq_true,
        decide_eq_true_eq] at hm0
      rcases hm0 with ⟨-, hb⟩ | ⟨ha, -⟩
      · exact hb ▸ h2
      · exact ha ▸ h1
  · rw [List.map_append]
    simp only [List.map_cons, List.map_nil]
    rw [List.nodup_append]
    refine ⟨inv.names, List.nodup_singleton _, ?_⟩
    intro a ha hb
    simp only [List.mem_singleton] at hb
    subst hb
    simp only [List.mem_map] at ha
    obtain ⟨x, hx, hxeq⟩ := ha
    have : settledHas settled c.1 = true := settledHas_iff.mpr ⟨x, hx, hxeq⟩
    rw [hunset] at this
    cases this

/-- The loop preserves the invariant. -/
theorem dijkstraLoop_inv {g : Graph} {s : String} (hwf : g.Wf) :
    ∀ (fuel : Nat) (settled : List SpfEntry), SpfInv g s settled →
      SpfInv g s (dijkstraLoop g fuel settled) := by
  intro fuel
  induction fuel with
  | zero => intro settled inv; exact inv
  | succ f ih =>
      intro settled inv
      simp only [dijkstraLoop]
      cases hc : pickMin (spfCandidates g settled) with
      | none => exact inv
      | some c => exact ih _ (spf_step hwf inv hc)

/-- Each loop iteration settles exactly one new entry, so either the
fuel is exhausted with that many new entries or the loop reached a state
with no remaining candidates. -/
theorem dijkstraLoop_saturates {g : Graph} :
    ∀ (fuel : Nat) (settled : List SpfEntry),
      (dijkstraLoop g fuel settled).length = settled.length + fuel ∨
      spfCandidates g (dijkstraLoop g fuel settled) = [] := by
  intro fuel
  induction fuel with
  | zero => intro settled; exact Or.inl (by simp [dijkstraLoop])
  | succ f ih =>
      intro settled
      simp only [dijkstraLoop]
      cases hc : pickMin (spfCandidates g settled) with
      | none =>
          right
          exact pickMin_eq_none.mp hc
      | some c =>
          rcases ih (settled ++ [c]) with h | h
          · left
            rw [h]
            simp only [List.length_append, List.length_cons, List.length_nil]
            omega
          · exact Or.inr h

/-- A state satisfying the invariant has at most one entry per graph
vertex. -/
theorem settled_length_le {g : Graph} {s : String} {settled : List SpfEntry}
    (inv : SpfInv g s settled) : settled.length ≤ g.nodes.length := by
  have h1 : (settled.map (fun e => e.1)).toFinset.card
      = (settled.map (fun e => e.1)).length :=
    List.toFinset_card_of_nodup inv.names
  have h2 : (settled.map (fun e => e.1)).toFinset ⊆ g.nodes.toFinset := by
    intro x hx
    simp only [List.mem_toFinset, List.mem_map] at hx ⊢
    obtain ⟨e, he, heq⟩ := hx
    exact heq ▸ inv.subset e he
  have h3 := Finset.card_le_card h2
  have h4 := g.nodes.toFinset_card_le
  have h5 : (settled.map (fun e => e.1)).length = settled.length :=
    List.length_map _ _
  omega

/-- With no candidates left, every reachable vertex is settled. -/
theorem saturated_complete {g : Graph} {s : String} {settled : List SpfEntry}
    (hwf : g.Wf) (inv : SpfInv g s settled)
    (hsat : spfCandidates g settled = []) :
    ∀ {y p d}, IsWalk g s y p d → settledHas settled y = true := by
  intro y p d hw
  induction hw with
  | single => exact inv.sMem
  | snoc hw' he ih =>
      rename_i u v p' d'
      by_cases hv : settledHas settled v = true
      · exact hv
      · obtain ⟨e, hemem, hename⟩ := settledHas_iff.mp ih
        have hadj : (v, g.edgeCost u v) ∈ g.adj u := adj_of_hasEdge hwf he
        have := spfCandidates_intro hemem (hename ▸ hadj)
          (Bool.not_eq_true _ ▸ hv)
        rw [hsat] at this
        cases this

/-- The invariant holds of the final Dijkstra state, which moreover has
no remaining candidates. -/
theorem dijkstra_final {g : Graph} {s : String} (hwf : g.Wf)
    (hs : s ∈ g.nodes) :
    SpfInv g s (dijkstra g s) ∧ spfCandidates g (dijkstra g s) = [] := by
  have hinit : SpfInv g s [(s, [s], 0)] := by
    refine ⟨?_, ?_, ?_, ?_⟩
    · intro e he
      rcases List.mem_singleton.mp he with rfl
      exact ⟨IsWalk.single, fun q d _ => Nat.zero_le d⟩
    · rw [settledHas_iff]
      exact ⟨(s, [s], 0), List.mem_singleton.mpr rfl, rfl⟩
    · intro e he
      rcases List.mem_singleton.mp he with rfl
      exact hs
    · simp
  have hfin : SpfInv g s (dijkstra g s) := by
    rw [dijkstra, if_pos hs]
    exact dijkstraLoop_inv hwf _ _ hinit
  refine ⟨hfin, ?_⟩
  rcases dijkstraLoop_saturates (g := g) g.nodes.length [(s, [s], 0)] with h | h
  · exfalso
    have hlen := settled_length_le hfin
    rw [dijkstra, if_pos hs] at hlen
    rw [h] at hlen
    simp only [List.length_cons, List.length_nil] at hlen
    omega
  · rw [dijkstra, if_pos hs]
    exact h

/-- Soundness of `dijkstra`: every produced entry records a genuine
shortest path with its cost. -/
theorem dijkstra_sound {g : Graph} {s : String} (hwf : g.Wf)
    {v : String} {p : List String} {d : Nat}
    (h : (v, p, d) ∈ dijkstra g s) :
    IsWalk g s v p d ∧ ∀ q e, IsWalk g s v q e → d ≤ e := by
  by_cases hs : s ∈ g.nodes
  · obtain ⟨inv, -⟩ := dijkstra_final hwf hs
    exact inv.sound (v, p, d) h
  · rw [dijkstra, if_neg hs] at h
    cases h

/-- Completeness of `dijkstra`: every reachable vertex receives an
entry, provided the source is a graph vertex. -/
theorem dijkstra_complete {g : Graph} {s : String} (hwf : g.Wf)
    (hs : s ∈ g.nodes) {y : String} (hy : Reachable g s y) :
    ∃ p d, (y, p, d) ∈ dijkstra g s := by
  obtain ⟨inv, hsat⟩ := dijkstra_final hwf hs
  obtain ⟨p, d, hw⟩ := hy
  obtain ⟨e, he, hname⟩ := settledHas_iff.mp
    (saturated_complete hwf inv hsat hw)
  exact ⟨e.2.1, e.2.2, by rw [← hname]; exact he⟩

/-- No vertex receives two entries. -/
theorem dijkstra_names_nodup {g : Graph} {s : String} (hwf : g.Wf) :
    ((dijkstra g s).map (fun e => e.1)).Nodup := by
  by_cases hs : s ∈ g.nodes
  · exact (dijkstra_final hwf hs).1.names
  · rw [dijkstra, if_neg hs]
    simp

/-! ### Routing-table level facts -/

theorem compute_spf_mem_iff {g : Graph} {s dest nh : String} {d : Nat} :
    (dest, nh, d) ∈ compute_spf_for_node g s ↔
      ∃ p, (dest, p, d) ∈ dijkstra g s ∧ s ≠ dest ∧ nh = p.getD 1 dest := by
  simp only [compute_spf_for_node, List.mem_filterMap]
  constructor
  · rintro ⟨e, he, hcond⟩
    by_cases hs : s = e.1
    · simp [hs] at hcond
    · rw [if_neg hs] at hcond
      injection hcond with h
      injection h with ha h
      injection h with hb hc
      refine ⟨e.2.1, ?_, ?_, ?_⟩
      · rw [← ha, ← hc]
        exact he
      · rw [← ha]
        exact hs
      · rw [← hb, ha]
  · rintro ⟨p, hmem, hne, hnh⟩
    refine ⟨(dest, p, d), hmem, ?_⟩
    rw [if_neg hne, hnh]

/-- The key list of the produced routing table is a sublist of the
settled vertex list. -/
theorem compute_spf_keys_sublist (g : Graph) (s : String) :
    ((compute_spf_for_node g s).map (fun e => e.1)).Sublist
      ((dijkstra g s).map (fun e => e.1)) := by
  unfold compute_spf_for_node
  generalize dijkstra g s = l
  induction l with
  | nil => simp
  | cons a t ih =>
      simp only [List.filterMap_cons]
      by_cases hs : s = a.1
      · rw [if_pos hs]
        simp only [List.map_cons]
        exact ih.cons _
      · rw [if_neg hs]
        simp only [List.map_cons]
        exact ih.cons₂ _

theorem compute_spf_keys_nodup {g : Graph} {s : String} (hwf : g.Wf) :
    ((compute_spf_for_node g s).map (fun e => e.1)).Nodup :=
  (compute_spf_keys_sublist g s).nodup (dijkstra_names_nodup hwf)

/-- Association-list lookup agrees with membership when keys are
duplicate-free. -/
theorem rtGet?_eq_some_iff {rt : List (String × String × Nat)}
    (hnodup : (rt.map (fun e => e.1)).Nodup) {dest nh : String} {d : Nat} :
    rtGet? rt dest = some (nh, d) ↔ (dest, nh, d) ∈ rt := by
  constructor
  · intro h
    simp only [rtGet?, Option.map_eq_some'] at h
    obtain ⟨e, hfind, hval⟩ := h
    have hmem := List.mem_of_find?_eq_some hfind
    have hkey : e.1 = dest := by
      have := List.find?_some hfind
      simpa using this
    have : e = (dest, nh, d) := by
      obtain ⟨e1, e2⟩ := e
      simp only at hkey hval
      rw [hkey, hval]
    exact this ▸ hmem
  · intro h
    have hpair : rt.Pairwise (fun a b => a.1 ≠ b.1) := by
      have := (List.pairwise_map (f := fun e : String × String × Nat => e.1)).mp hnodup
      exact this
    simp only [rtGet?, Option.map_eq_some']
    have hfind : (rt.find? (fun e => e.1 = dest)).isSome := by
      rw [List.find?_isSome]
      exact ⟨(dest, nh, d), h, by simp⟩
    obtain ⟨e, he⟩ := Option.isSome_iff_exists.mp hfind
    refine ⟨e, he, ?_⟩
    have hmem := List.mem_of_find?_eq_some he
    have hkey : e.1 = dest := by
      have := List.find?_some he
      simpa using this
    by_cases heq : e = (dest, nh, d)
    · rw [heq]
    · exfalso
      have hsym : Symmetric
          (fun a b : String × String × Nat => a.1 ≠ b.1) :=
        fun a b hab => hab.symm
      exact hpair.forall hsym hmem h heq (by simp [hkey])

/-- A routing-table entry is a shortest-path record: minimum cost over
all walks, next-hop the second vertex of a witnessing minimum-cost walk
(the destination itself when that walk is the direct link). -/
theorem rtGet?_spf_sound {g : Graph} {s dest nh : String} {d : Nat}
    (hwf : g.Wf)
    (h : rtGet? (compute_spf_for_node g s) dest = some (nh, d)) :
    IsShortestDist g s dest d ∧ dest ≠ s ∧
      ∃ p, IsWalk g s dest p d ∧ (∀ q e, IsWalk g s dest q e → d ≤ e) ∧
        p.get? 1 = some nh := by
  have hmem := (rtGet?_eq_some_iff (compute_spf_keys_nodup hwf)).mp h
  obtain ⟨p, hdij, hne, hnh⟩ := compute_spf_mem_iff.mp hmem
  obtain ⟨hwalk, hmin⟩ := dijkstra_sound hwf hdij
  obtain ⟨x, t, hshape⟩ := hwalk.shape (Ne.symm hne)
  have hx : p.get? 1 = some x := by rw [hshape]; rfl
  have hgetD : p.getD 1 dest = x := by rw [hshape]; rfl
  refine ⟨⟨⟨p, hwalk⟩, fun q e hq => hmin q e hq⟩, Ne.symm hne,
    p, hwalk, hmin, ?_⟩
  rw [hx, hnh, hgetD]

/-- Key-set characterization: a destination has an entry exactly when it
is reachable and differs from the source. -/
theorem rtGet?_spf_isSome_iff {g : Graph} {s dest : String} (hwf : g.Wf) :
    (∃ v, rtGet? (compute_spf_for_node g s) dest = some v) ↔
      (Reachable g s dest ∧ dest ≠ s) := by
  constructor
  · rintro ⟨⟨nh, d⟩, h⟩
    obtain ⟨⟨⟨p, hw⟩, -⟩, hne, -⟩ := rtGet?_spf_sound hwf h
    exact ⟨⟨p, d, hw⟩, hne⟩
  · rintro ⟨hr, hne⟩
    by_cases hs : s ∈ g.nodes
    · obtain ⟨p, d, hdij⟩ := dijkstra_complete hwf hs hr
      have hmem : (dest, p.getD 1 dest, d) ∈ compute_spf_for_node g s :=
        compute_spf_mem_iff.mpr ⟨p, hdij, Ne.symm hne, rfl⟩
      refine ⟨(p.getD 1 dest, d), ?_⟩
      exact (rtGet?_eq_some_iff (compute_spf_keys_nodup hwf)).mpr hmem
    · exfalso
      obtain ⟨p, d, hw⟩ := hr
      rcases hw.trivial_or_mem hwf with ⟨heq, -, -⟩ | ⟨hmem, -⟩
      · exact hne heq
      · exact hs hmem

/-- A source that is not a graph vertex gets an empty routing table. -/
theorem compute_spf_not_mem {g : Graph} {s : String} (hs : s ∉ g.nodes) :
    compute_spf_for_node g s = [] := by
  simp [compute_spf_for_node, dijkstra, hs]

/-- Lookup in an association list whose entries are generated per key. -/
theorem dictGet?_map_self {β : Type} (f : String → β) :
    ∀ {l : List String} {a : String}, a ∈ l →
      dictGet? (l.map (fun n => (n, f n))) a = some (f a) := by
  intro l
  induction l with
  | nil => intro a ha; cases ha
  | cons b t ih =>
      intro a ha
      simp only [List.map_cons, dictGet?]
      by_cases hb : b = a
      · subst hb
        rw [if_pos rfl]
      · rw [if_neg hb]
        rcases List.mem_cons.mp ha with h | h
        · exact absurd h.symm hb
        · exact ih h

/-- Lookup into the all-nodes table. -/
theorem install_routes_lookup {g : Graph} {a : String} (ha : a ∈ g.nodes) :
    dictGet? (install_routes_for_all g) a = some (compute_spf_for_node g a) := by
  unfold install_routes_for_all
  exact dictGet?_map_self (compute_spf_for_node g) ha

/-- Shortest distances are unique. -/
theorem shortest_unique {g : Graph} {s v : String} {d1 d2 : Nat}
    (h1 : IsShortestDist g s v d1) (h2 : IsShortestDist g s v d2) :
    d1 = d2 := by
  obtain ⟨⟨p1, hw1⟩, hm1⟩ := h1
  obtain ⟨⟨p2, hw2⟩, hm2⟩ := h2
  exact Nat.le_antisymm (hm1 p2 d2 hw2) (hm2 p1 d1 hw1)

/-- Shortest distances are symmetric (the graph is undirected). -/
theorem shortest_symm {g : Graph} {a b : String} {d : Nat}
    (h : IsShortestDist g a b d) : IsShortestDist g b a d := by
  obtain ⟨⟨p, hw⟩, hmin⟩ := h
  exact ⟨⟨p.reverse, hw.reverse⟩, fun q e hq => hmin q.reverse e hq.reverse⟩

/-- Reachability is symmetric. -/
theorem reachable_symm {g : Graph} {a b : String} (h : Reachable g a b) :
    Reachable g b a := by
  obtain ⟨p, d, hw⟩ := h
  exact ⟨p.reverse, d, hw.reverse⟩

/-! ### Decimal representations of naturals are injective

`Nat.repr` drives all generated names (`S{i}`, `L{i}`, `10.255.0.{i}`,
`10.0.0.{i}`); distinctness of the generated names reduces to the
injectivity of `Nat.repr`, proved here through a structural clone of
`Nat.toDigitsCore`. -/

/-- Structural (fuel-free) version of `Nat.toDigitsCore 10`. -/
def decChars (n : Nat) (acc : List Char) : List Char :=
  if h : n / 10 = 0 then Nat.digitChar (n % 10) :: acc
  else decChars (n / 10) (Nat.digitChar (n % 10) :: acc)
termination_by n
decreasing_by
  exact Nat.div_lt_self (Nat.pos_of_ne_zero (by omega)) (by omega)

/-- `toDigitsCore` computes `decChars` whenever the fuel suffices. -/
theorem toDigitsCore_eq_decChars :
    ∀ (f n : Nat) (acc : List Char), n < 10 ^ f → 1 ≤ f →
      Nat.toDigitsCore 10 f n acc = decChars n acc := by
  intro f
  induction f with
  | zero => intro n acc _ h1; cases h1
  | succ f ih =>
      intro n acc hlt _
      rw [decChars]
      by_cases h0 : n / 10 = 0
      · simp [Nat.toDigitsCore, h0]
      · have hf : 1 ≤ f := by
          by_contra hf
          have : f = 0 := by omega
          subst this
          simp only [pow_succ, pow_zero, one_mul] at hlt
          exact h0 (Nat.div_eq_of_lt hlt)
        have hdiv : n / 10 < 10 ^ f := by
          rw [Nat.div_lt_iff_lt_mul (by norm_num)]
          calc n < 10 ^ (f + 1) := hlt
          _ = 10 ^ f * 10 := by rw [pow_succ]
        simp only [Nat.toDigitsCore, h0, if_neg h0, dif_neg h0]
        exact ih (n / 10) _ hdiv hf

theorem repr_eq_decChars (n : Nat) :
    Nat.repr n = (decChars n []).asString := by
  have h1 : n < 10 ^ (n + 1) := by
    calc n < 2 ^ n := Nat.lt_two_pow n
    _ ≤ 10 ^ n := Nat.pow_le_pow_left (by norm_num) n
    _ ≤ 10 ^ (n + 1) := Nat.pow_le_pow_right (by norm_num) (Nat.le_succ n)
  rw [Nat.repr, Nat.toDigits, toDigitsCore_eq_decChars (n + 1) n [] h1 (by omega)]

/-- Accumulator lemma for `decChars`. -/
theorem decChars_acc (n : Nat) :
    ∀ acc, decChars n acc = decChars n [] ++ acc := by
  induction n using Nat.strong_induction_on with
  | _ n ih =>
      intro acc
      rw [decChars]
      conv_rhs => rw [decChars]
      by_cases h0 : n / 10 = 0
      · simp [h0]
      · rw [dif_neg h0, dif_neg h0]
        have hlt : n / 10 < n :=
          Nat.div_lt_self (Nat.pos_of_ne_zero (by omega)) (by omega)
        rw [ih _ hlt (Nat.digitChar (n % 10) :: acc),
          ih _ hlt [Nat.digitChar (n % 10)]]
        simp

/-- `decChars` of a small number is a single digit. -/
theorem decChars_small {n : Nat} (h : n < 10) :
    decChars n [] = [Nat.digitChar n] := by
  rw [decChars]
  have h0 : n / 10 = 0 := Nat.div_eq_of_lt h
  rw [dif_pos h0, Nat.mod_eq_of_lt h]

/-- `decChars` of a large number splits off its last digit. -/
theorem decChars_large {n : Nat} (h : ¬ n < 10) :
    decChars n [] = decChars (n / 10) [] ++ [Nat.digitChar (n % 10)] := by
  rw [decChars]
  have h0 : ¬ n / 10 = 0 := by
    intro hc
    exact h (by omega)
  rw [dif_neg h0, decChars_acc]

theorem decChars_ne_nil (n : Nat) : decChars n [] ≠ [] := by
  by_cases h : n < 10
  · rw [decChars_small h]
    simp
  · rw [decChars_large h]
    simp

theorem digitChar_inj : ∀ a, a < 10 → ∀ b, b < 10 →
    Nat.digitChar a = Nat.digitChar b → a = b := by decide

/-- `decChars` is injective. -/
theorem decChars_inj : ∀ m n : Nat, decChars m [] = decChars n [] → m = n := by
  intro m
  induction m using Nat.strong_induction_on with
  | _ m ih =>
      intro n h
      by_cases hm : m < 10 <;> by_cases hn : n < 10
      · rw [decChars_small hm, decChars_small hn] at h
        injection h with h
        exact digitChar_inj m hm n hn h
      · rw [decChars_small hm, decChars_large hn] at h
        have hlen := congrArg List.length h
        have hpos := List.length_pos.mpr (decChars_ne_nil (n / 10))
        simp only [List.length_append, List.length_cons, List.length_nil] at hlen
        omega
      · rw [decChars_large hm, decChars_small hn] at h
        have hlen := congrArg List.length h
        have hpos := List.length_pos.mpr (decChars_ne_nil (m / 10))
        simp only [List.length_append, List.length_cons, List.length_nil] at hlen
        omega
      · rw [decChars_large hm, decChars_large hn] at h
        have hrev := congrArg List.reverse h
        simp only [List.reverse_append, List.reverse_cons, List.reverse_nil,
          List.nil_append, List.singleton_append, List.cons_append] at hrev
        injection hrev with hd htl
        have hdig : m % 10 = n % 10 :=
          digitChar_inj _ (Nat.mod_lt _ (by norm_num)) _
            (Nat.mod_lt _ (by norm_num)) hd
        have hdiv : m / 10 = n / 10 := by
          have := congrArg List.reverse htl
          simp only [List.reverse_reverse] at this
          exact ih (m / 10)
            (Nat.div_lt_self (by omega) (by norm_num)) (n / 10) this
        omega

/-- `Nat.repr` is injective. -/
theorem Nat_repr_inj {m n : Nat} (h : Nat.repr m = Nat.repr n) : m = n := by
  rw [repr_eq_decChars, repr_eq_decChars] at h
  injection h with h
  exact decChars_inj m n h

/-! ### Distinctness of generated names and addresses -/

theorem spineName_inj {i j : Nat} (h : spineName i = spineName j) : i = j := by
  have hd := congrArg String.data h
  simp only [spineName, String.data_append] at hd
  have : (Nat.repr i).data = (Nat.repr j).data := List.append_cancel_left hd
  exact Nat_repr_inj (String.ext this)

theorem leafName_inj {i j : Nat} (h : leafName i = leafName j) : i = j := by
  have hd := congrArg String.data h
  simp only [leafName, String.data_append] at hd
  have : (Nat.repr i).data = (Nat.repr j).data := List.append_cancel_left hd
  exact Nat_repr_inj (String.ext this)

theorem spineName_ne_leafName (i j : Nat) : spineName i ≠ leafName j := by
  intro h
  have hd := congrArg String.data h
  simp only [spineName, leafName, String.data_append] at hd
  simp at hd

theorem loopback_ip_inj {i j : Nat} (h : loopback_ip i = loopback_ip j) :
    i = j := by
  have hd := congrArg String.data h
  simp only [loopback_ip, String.data_append] at hd
  have : (Nat.repr i).data = (Nat.repr j).data := List.append_cancel_left hd
  exact Nat_repr_inj (String.ext this)

theorem vtep_ip_inj {i j : Nat} (h : vtep_ip i = vtep_ip j) : i = j := by
  have hd := congrArg String.data h
  simp only [vtep_ip, String.data_append] at hd
  have : (Nat.repr i).data = (Nat.repr j).data := List.append_cancel_left hd
  exact Nat_repr_inj (String.ext this)

/-- The VTEP address family (`10.0.0.*`) is disjoint from the loopback
family (`10.255.0.*`). -/
theorem vtep_ip_ne_loopback_ip (i j : Nat) : vtep_ip i ≠ loopback_ip j := by
  intro h
  have hd := congrArg String.data h
  simp only [vtep_ip, loopback_ip, String.data_append] at hd
  simp at hd

/-! ### Characterization of the spine-leaf builder -/

/-- The node record created for spine `i`. -/
def spineNode (i : Nat) : Node :=
  { name := spineName i, role := "spine", loopback := loopback_ip i }

/-- The node record created for leaf `i` in a fabric with `S` spines. -/
def leafNode (S i : Nat) : Node :=
  { name := leafName i, role := "leaf", loopback := loopback_ip (i + S),
    vtep_ip := some (vtep_ip (i + S)) }

/-- The expected node registry of `build_spine_leaf S L`. -/
def spineLeafNodes (S L : Nat) : List (String × Node) :=
  (List.range' 1 S).map (fun i => (spineName i, spineNode i)) ++
    (List.range' 1 L).map (fun i => (leafName i, leafNode S i))

/-- The expected graph vertex list of `build_spine_leaf S L`. -/
def spineLeafNames (S L : Nat) : List String :=
  (List.range' 1 S).map spineName ++ (List.range' 1 L).map leafName

/-- The expected edge list of `build_spine_leaf S L`. -/
def spineLeafEdges (S L : Nat) : List (String × String × Nat) :=
  (List.range' 1 S).flatMap (fun si =>
    (List.range' 1 L).map (fun li => (spineName si, leafName li, 10)))

theorem foldl_flatMap {α β γ : Type} (f : γ → β → γ) (g : α → List β)
    (l : List α) (init : γ) :
    (l.flatMap g).foldl f init = l.foldl (fun acc x => (g x).foldl f acc) init := by
  induction l generalizing init with
  | nil => rfl
  | cons a t ih => simp [List.flatMap_cons, List.foldl_append, ih]

/-- Folding `add_node` over fresh, distinct names appends the new nodes
in order to both the registry and the vertex list. -/
theorem add_node_fold (mk : Nat → Node) :
    ∀ (is : List Nat) (f : Fabric),
      f.nodes.map (fun kv => kv.1) = f.graph.nodes →
      (∀ i ∈ is, (mk i).name ∉ f.graph.nodes) →
      (is.map (fun i => (mk i).name)).Nodup →
      (is.foldl (fun f i => f.add_node (mk i)) f).nodes
          = f.nodes ++ is.map (fun i => ((mk i).name, mk i)) ∧
      (is.foldl (fun f i => f.add_node (mk i)) f).graph.nodes
          = f.graph.nodes ++ is.map (fun i => (mk i).name) ∧
      (is.foldl (fun f i => f.add_node (mk i)) f).graph.edges
          = f.graph.edges := by
  intro is
  induction is with
  | nil => intro f _ _ _; exact ⟨by simp, by simp, rfl⟩
  | cons a t ih =>
      intro f hkeys hfresh hnodup
      have hafresh : (mk a).name ∉ f.graph.nodes :=
        hfresh a (List.mem_cons_self a t)
      have hstep_nodes : (f.add_node (mk a)).nodes
          = f.nodes ++ [((mk a).name, mk a)] := by
        simp only [Fabric.add_node, dictInsert]
        rw [if_neg]
        intro hc
        simp only [List.any_eq_true, decide_eq_true_eq] at hc
        obtain ⟨kv, hkv, hkeq⟩ := hc
        exact hafresh (hkeys ▸ List.mem_map.mpr ⟨kv, hkv, hkeq⟩)
      have hstep_gnodes : (f.add_node (mk a)).graph.nodes
          = f.graph.nodes ++ [(mk a).name] := by
        simp only [Fabric.add_node, Graph.addNodeG]
        rw [if_neg hafresh]
      have hstep_edges : (f.add_node (mk a)).graph.edges = f.graph.edges := by
        simp only [Fabric.add_node, Graph.addNodeG]
        split <;> rfl
      simp only [List.map_cons, List.nodup_cons] at hnodup
      have hkeys' : (f.add_node (mk a)).nodes.map (fun kv => kv.1)
          = (f.add_node (mk a)).graph.nodes := by
        rw [hstep_nodes, hstep_gnodes, List.map_append, hkeys]
        rfl
      have hfresh' : ∀ i ∈ t, (mk i).name ∉ (f.add_node (mk a)).graph.nodes := by
        intro i hi
        rw [hstep_gnodes]
        intro hc
        rcases List.mem_append.mp hc with hc | hc
        · exact hfresh i (List.mem_cons_of_mem a hi) hc
        · rcases List.mem_singleton.mp hc with hc
          exact hnodup.1 (List.mem_map.mpr ⟨i, hi, hc⟩)
      obtain ⟨h1, h2, h3⟩ := ih (f.add_node (mk a)) hkeys' hfresh' hnodup.2
      simp only [List.foldl_cons]
      refine ⟨?_, ?_, ?_⟩
      · rw [h1, hstep_nodes, List.append_assoc]
        rfl
      · rw [h2, hstep_gnodes, List.append_assoc]
        rfl
      · rw [h3, hstep_edges]

/-- Folding `add_link` over links with registered endpoints and pairwise
fresh endpoint pairs appends the corresponding edges in order. -/
theorem add_link_fold :
    ∀ (ls : List Link) (f : Fabric),
      (∀ l ∈ ls, l.a ∈ f.graph.nodes ∧ l.b ∈ f.graph.nodes) →
      (∀ l ∈ ls, ∀ e ∈ f.graph.edges, edgeMatches e l.a l.b = false) →
      ls.Pairwise (fun l l' => edgeMatches (l.a, l.b, l.cost) l'.a l'.b = false) →
      (ls.foldl (fun f l => f.add_link l) f).graph.edges
          = f.graph.edges ++ ls.map (fun l => (l.a, l.b, l.cost)) ∧
      (ls.foldl (fun f l => f.add_link l) f).graph.nodes = f.graph.nodes ∧
      (ls.foldl (fun f l => f.add_link l) f).nodes = f.nodes := by
  intro ls
  induction ls with
  | nil => intro f _ _ _; exact ⟨by simp, rfl, rfl⟩
  | cons l t ih =>
      intro f hend hfresh hpair
      obtain ⟨ha, hb⟩ := hend l (List.mem_cons_self l t)
      have hnoadd : (f.graph.addNodeG l.a).addNodeG l.b = f.graph := by
        simp only [Graph.addNodeG, if_pos ha]
        rw [if_pos hb]
      have hnew : (f.add_link l).graph
          = { f.graph with edges := f.graph.edges ++ [(l.a, l.b, l.cost)] } := by
        simp only [Fabric.add_link, Graph.addEdgeG, hnoadd]
        rw [if_neg]
        intro hc
        simp only [List.any_eq_true] at hc
        obtain ⟨e, he, hm⟩ := hc
        rw [hfresh l (List.mem_cons_self l t) e he] at hm
        cases hm
      have hnodes : (f.add_link l).nodes = f.nodes := rfl
      rw [List.pairwise_cons] at hpair
      have hend' : ∀ l' ∈ t, l'.a ∈ (f.add_link l).graph.nodes ∧
          l'.b ∈ (f.add_link l).graph.nodes := by
        intro l' hl'
        rw [hnew]
        exact hend l' (List.mem_cons_of_mem l hl')
      have hfresh' : ∀ l' ∈ t, ∀ e ∈ (f.add_link l).graph.edges,
          edgeMatches e l'.a l'.b = false := by
        intro l' hl' e he
        rw [hnew] at he
        simp only at he
        rcases List.mem_append.mp he with he | he
        · exact hfresh l' (List.mem_cons_of_mem l hl') e he
        · rcases List.mem_singleton.mp he with rfl
          exact hpair.1 l' hl'
      obtain ⟨h1, h2, h3⟩ := ih (f.add_link l) hend' hfresh' hpair.2
      simp only [List.foldl_cons]
      refine ⟨?_, ?_, ?_⟩
      · rw [h1, hnew]
        simp [List.append_assoc]
      · rw [h2, hnew]
      · rw [h3, hnodes]

theorem spineNames_nodup (S : Nat) :
    ((List.range' 1 S).map spineName).Nodup :=
  (List.nodup_range' _ _).map (fun _ _ h => spineName_inj h)

theorem leafNames_nodup (L : Nat) :
    ((List.range' 1 L).map leafName).Nodup :=
  (List.nodup_range' _ _).map (fun _ _ h => leafName_inj h)

/-- The builder produces exactly the expected registry, vertex list and
edge list. -/
theorem build_spine_leaf_spec (S L : Nat) :
    (Fabric.empty.build_spine_leaf S L).nodes = spineLeafNodes S L ∧
    (Fabric.empty.build_spine_leaf S L).graph.nodes = spineLeafNames S L ∧
    (Fabric.empty.build_spine_leaf S L).graph.edges = spineLeafEdges S L := by
  have hdef : Fabric.empty.build_spine_leaf S L
      = (List.range' 1 S).foldl (fun f si => (List.range' 1 L).foldl
          (fun f li => f.add_link { a := spineName si, b := leafName li, cost := 10 }) f)
          ((List.range' 1 L).foldl (fun f i => f.add_node (leafNode S i))
            ((List.range' 1 S).foldl (fun f i => f.add_node (spineNode i))
              Fabric.empty)) := rfl
  rw [hdef]
  -- stage 1: spines
  obtain ⟨hn1, hg1, he1⟩ := add_node_fold spineNode (List.range' 1 S)
    Fabric.empty rfl (by intro i _ hc; cases hc) (spineNames_nodup S)
  set f1 := (List.range' 1 S).foldl (fun f i => f.add_node (spineNode i))
    Fabric.empty with hf1
  simp only [Fabric.empty, List.nil_append] at hn1 hg1 he1
  -- stage 2: leaves
  have hkeys2 : f1.nodes.map (fun kv => kv.1) = f1.graph.nodes := by
    rw [hn1, hg1]
    simp [spineNode]
  have hfresh2 : ∀ i ∈ List.range' 1 L, (leafNode S i).name ∉ f1.graph.nodes := by
    intro i _ hc
    rw [hg1] at hc
    obtain ⟨j, -, hj⟩ := List.mem_map.mp hc
    exact spineName_ne_leafName j i (by simpa [leafNode] using hj)
  have hnodup2 : ((List.range' 1 L).map (fun i => (leafNode S i).name)).Nodup := by
    simpa [leafNode] using leafNames_nodup L
  obtain ⟨hn2, hg2, he2⟩ :=
    add_node_fold (leafNode S) (List.range' 1 L) f1 hkeys2 hfresh2 hnodup2
  set f2 := (List.range' 1 L).foldl (fun f i => f.add_node (leafNode S i)) f1
    with hf2
  -- stage 3: links
  have hnested :
      (List.range' 1 S).foldl (fun f si => (List.range' 1 L).foldl
        (fun f li => f.add_link { a := spineName si, b := leafName li, cost := 10 }) f) f2
      = (((List.range' 1 S).flatMap (fun si => (List.range' 1 L).map
          (fun li => ({ a := spineName si, b := leafName li, cost := 10 } : Link)))).foldl
            (fun f l => f.add_link l) f2) := by
    rw [foldl_flatMap]
    congr 1
    funext acc si
    rw [List.foldl_map]
  have hlinkmem : ∀ l ∈ (List.range' 1 S).flatMap (fun si => (List.range' 1 L).map
      (fun li => ({ a := spineName si, b := leafName li, cost := 10 } : Link))),
      ∃ si ∈ List.range' 1 S, ∃ li ∈ List.range' 1 L,
        l = { a := spineName si, b := leafName li, cost := 10 } := by
    intro l hl
    simp only [List.mem_flatMap, List.mem_map] at hl
    obtain ⟨si, hsi, li, hli, hleq⟩ := hl
    exact ⟨si, hsi, li, hli, hleq.symm⟩
  have hend3 : ∀ l ∈ (List.range' 1 S).flatMap (fun si => (List.range' 1 L).map
      (fun li => ({ a := spineName si, b := leafName li, cost := 10 } : Link))),
      l.a ∈ f2.graph.nodes ∧ l.b ∈ f2.graph.nodes := by
    intro l hl
    obtain ⟨si, hsi, li, hli, rfl⟩ := hlinkmem l hl
    rw [hg2, hg1]
    constructor
    · exact List.mem_append_left _ (List.mem_map.mpr ⟨si, hsi, rfl⟩)
    · exact List.mem_append_right _ (List.mem_map.mpr ⟨li, hli, by simp [leafNode]⟩)
  have hfresh3 : ∀ l ∈ (List.range' 1 S).flatMap (fun si => (List.range' 1 L).map
      (fun li => ({ a := spineName si, b := leafName li, cost := 10 } : Link))),
      ∀ e ∈ f2.graph.edges, edgeMatches e l.a l.b = false := by
    intro l _ e he
    rw [he2, he1] at he
    cases he
  have hpair3 : ((List.range' 1 S).flatMap (fun si => (List.range' 1 L).map
      (fun li => ({ a := spineName si, b := leafName li, cost := 10 } : Link)))).Pairwise
        (fun l l2 => edgeMatches (l.a, l.b, l.cost) l2.a l2.b = false) := by
    have hprod : ((List.range' 1 S).product (List.range' 1 L)).Nodup :=
      (List.nodup_range' _ _).product (List.nodup_range' _ _)
    have heq : (List.range' 1 S).flatMap (fun si => (List.range' 1 L).map
        (fun li => ({ a := spineName si, b := leafName li, cost := 10 } : Link)))
        = ((List.range' 1 S).product (List.range' 1 L)).map
            (fun p => ({ a := spineName p.1, b := leafName p.2, cost := 10 } : Link)) := by
      simp only [List.product, List.map_flatMap, List.map_map]
      rfl
    rw [heq, List.pairwise_map]
    refine hprod.imp ?_
    intro p q hpq
    simp only [edgeMatches]
    rw [Bool.eq_false_iff]
    simp only [ne_eq, Bool.or_eq_true, Bool.and_eq_true, decide_eq_true_eq,
      not_or, not_and]
    constructor
    · intro h1 h2
      exact hpq (Prod.ext (spineName_inj h1) (leafName_inj h2))
    · intro h1
      exact absurd h1 (spineName_ne_leafName p.1 q.2)
  obtain ⟨he3, hg3, hn3⟩ := add_link_fold
    ((List.range' 1 S).flatMap (fun si => (List.range' 1 L).map
      (fun li => ({ a := spineName si, b := leafName li, cost := 10 } : Link)))) f2
    hend3 hfresh3 hpair3
  rw [hnested]
  refine ⟨?_, ?_, ?_⟩
  · rw [hn3, hn2, hn1]
    simp [spineLeafNodes, spineNode, leafNode]
  · rw [hg3, hg2, hg1]
    simp [spineLeafNames, spineNode, leafNode]
  · rw [he3, he2, he1]
    have heqe : ((List.range' 1 S).flatMap (fun si => (List.range' 1 L).map
        (fun li => ({ a := spineName si, b := leafName li, cost := 10 } : Link)))).map
          (fun l => (l.a, l.b, l.cost)) = spineLeafEdges S L := by
      simp only [spineLeafEdges, List.map_flatMap, List.map_map]
      rfl
    rw [heqe]
    rfl

/-! ### Properties of the built fabric graph -/

theorem spineLeafEdges_mem {S L : Nat} {e : String × String × Nat} :
    e ∈ spineLeafEdges S L ↔ ∃ si ∈ List.range' 1 S, ∃ li ∈ List.range' 1 L,
      e = (spineName si, leafName li, 10) := by
  simp only [spineLeafEdges, List.mem_flatMap, List.mem_map]
  constructor
  · rintro ⟨si, hsi, li, hli, rfl⟩
    exact ⟨si, hsi, li, hli, rfl⟩
  · rintro ⟨si, hsi, li, hli, rfl⟩
    exact ⟨si, hsi, li, hli, rfl⟩

theorem spineLeafNames_nodup (S L : Nat) : (spineLeafNames S L).Nodup := by
  rw [spineLeafNames, List.nodup_append]
  refine ⟨spineNames_nodup S, leafNames_nodup L, ?_⟩
  intro a ha hb
  obtain ⟨i, -, hi⟩ := List.mem_map.mp ha
  obtain ⟨j, -, hj⟩ := List.mem_map.mp hb
  exact spineName_ne_leafName i j (hi.trans hj.symm)

theorem build_wf (S L : Nat) : (Fabric.empty.build_spine_leaf S L).graph.Wf := by
  obtain ⟨-, hg, he⟩ := build_spine_leaf_spec S L
  refine ⟨hg ▸ spineLeafNames_nodup S L, ?_, ?_⟩
  · intro e hee
    rw [he] at hee
    obtain ⟨si, hsi, li, hli, rfl⟩ := spineLeafEdges_mem.mp hee
    rw [hg]
    constructor
    · exact List.mem_append_left _ (List.mem_map.mpr ⟨si, hsi, rfl⟩)
    · exact List.mem_append_right _ (List.mem_map.mpr ⟨li, hli, rfl⟩)
  · rw [he]
    have heq : spineLeafEdges S L
        = ((List.range' 1 S).product (List.range' 1 L)).map
            (fun p => (spineName p.1, leafName p.2, 10)) := by
      simp only [spineLeafEdges, List.product, List.map_flatMap, List.map_map]
      rfl
    rw [heq, List.pairwise_map]
    refine ((List.nodup_range' _ _).product (List.nodup_range' _ _)).imp ?_
    intro p q hpq hc
    simp only [edgeMatches, Bool.or_eq_true, Bool.and_eq_true,
      decide_eq_true_eq] at hc
    rcases hc with ⟨h1, h2⟩ | ⟨h1, h2⟩
    · exact hpq (Prod.ext (spineName_inj h1).symm (leafName_inj h2).symm)
    · exact absurd h1 (spineName_ne_leafName q.1 p.2)

theorem build_hasEdge_iff {S L : Nat} {u v : String} :
    (Fabric.empty.build_spine_leaf S L).graph.hasEdge u v = true ↔
      ∃ si ∈ List.range' 1 S, ∃ li ∈ List.range' 1 L,
        ((u = spineName si ∧ v = leafName li) ∨
          (u = leafName li ∧ v = spineName si)) := by
  obtain ⟨-, -, he⟩ := build_spine_leaf_spec S L
  constructor
  · intro h
    obtain ⟨e, hee, hm⟩ := hasEdge_elim h
    rw [he] at hee
    obtain ⟨si, hsi, li, hli, rfl⟩ := spineLeafEdges_mem.mp hee
    simp only [edgeMatches, Bool.or_eq_true, Bool.and_eq_true,
      decide_eq_true_eq] at hm
    rcases hm with ⟨h1, h2⟩ | ⟨h1, h2⟩
    · exact ⟨si, hsi, li, hli, Or.inl ⟨h1.symm, h2.symm⟩⟩
    · exact ⟨si, hsi, li, hli, Or.inr ⟨h2.symm, h1.symm⟩⟩
  · rintro ⟨si, hsi, li, hli, hcase⟩
    have hee : (spineName si, leafName li, 10)
        ∈ (Fabric.empty.build_spine_leaf S L).graph.edges := by
      rw [he]
      exact spineLeafEdges_mem.mpr ⟨si, hsi, li, hli, rfl⟩
    rcases hcase with ⟨rfl, rfl⟩ | ⟨rfl, rfl⟩
    · exact hasEdge_intro hee (by simp [edgeMatches])
    · exact hasEdge_intro hee (by simp [edgeMatches])

theorem build_edgeCost {S L : Nat} {u v : String}
    (h : (Fabric.empty.build_spine_leaf S L).graph.hasEdge u v = true) :
    (Fabric.empty.build_spine_leaf S L).graph.edgeCost u v = 10 := by
  obtain ⟨e, hee, hm⟩ := hasEdge_elim h
  have h10 : e.2.2 = 10 := by
    obtain ⟨-, -, hedges⟩ := build_spine_leaf_spec S L
    rw [hedges] at hee
    obtain ⟨si, -, li, -, rfl⟩ := spineLeafEdges_mem.mp hee
    rfl
  rw [edgeCost_eq_of_matches (build_wf S L) hee hm, h10]

/-- Walks in the fabric: either trivial or of cost at least 10, since
every edge costs 10. -/
theorem build_walk_cases {S L : Nat} {s v : String} {p : List String} {d : Nat}
    (h : IsWalk (Fabric.empty.build_spine_leaf S L).graph s v p d) :
    (v = s ∧ p = [s] ∧ d = 0) ∨ 10 ≤ d := by
  induction h with
  | single => exact Or.inl ⟨rfl, rfl, rfl⟩
  | snoc hw he ih =>
      right
      rw [build_edgeCost he]
      omega

/-- A zero-cost walk in the fabric is trivial. -/
theorem build_walk_zero {S L : Nat} {s v : String} {p : List String}
    (h : IsWalk (Fabric.empty.build_spine_leaf S L).graph s v p 0) :
    v = s ∧ p = [s] := by
  rcases build_walk_cases h with ⟨h1, h2, -⟩ | h1
  · exact ⟨h1, h2⟩
  · omega

/-- Any fabric walk from a leaf to a directly linked spine of cost 10 is
the direct link, and 10 is a lower bound for all walks to the spine. -/
theorem build_walk_to_spine {S L : Nat} {i j : Nat} {p : List String} {d : Nat}
    (h : IsWalk (Fabric.empty.build_spine_leaf S L).graph
      (leafName i) (spineName j) p d) :
    10 ≤ d ∧ (d = 10 → p = [leafName i, spineName j]) := by
  cases h with
  | snoc hw he =>
      rename_i u p' d'
      have h10 : (Fabric.empty.build_spine_leaf S L).graph.edgeCost u (spineName j) = 10 :=
        build_edgeCost he
      constructor
      · omega
      · intro hd
        rw [h10] at hd
        have hd' : d' = 0 := by omega
        subst hd'
        obtain ⟨hu, hp⟩ := build_walk_zero hw
        rw [hp]
        rfl

/-- The final edge of a fabric walk into a leaf comes from a spine. -/
theorem build_edge_into_leaf {S L : Nat} {u : String} {j : Nat}
    (he : (Fabric.empty.build_spine_leaf S L).graph.hasEdge u (leafName j) = true) :
    ∃ si ∈ List.range' 1 S, u = spineName si := by
  obtain ⟨si, hsi, li, -, hcase⟩ := build_hasEdge_iff.mp he
  rcases hcase with ⟨h1, -⟩ | ⟨-, h2⟩
  · exact ⟨si, hsi, h1⟩
  · exact absurd h2.symm (spineName_ne_leafName si j)

/-- Fabric walks between distinct leaves cost at least 20. -/
theorem build_walk_leaf_leaf {S L : Nat} {i j : Nat} (hij : i ≠ j)
    {p : List String} {d : Nat}
    (h : IsWalk (Fabric.empty.build_spine_leaf S L).graph
      (leafName i) (leafName j) p d) : 20 ≤ d := by
  have key : ∀ (v : String) (q : List String) (e : Nat),
      IsWalk (Fabric.empty.build_spine_leaf S L).graph (leafName i) v q e →
      v = leafName j → 20 ≤ e := by
    intro v q e hw
    cases hw with
    | single =>
        intro hv
        exact absurd (leafName_inj hv) hij
    | snoc hw' he =>
        intro hv
        rename_i u q' e'
        subst hv
        obtain ⟨si, -, rfl⟩ := build_edge_into_leaf he
        have h10 := build_edgeCost he
        rcases build_walk_cases hw' with ⟨h1, -, -⟩ | h1
        · exact absurd h1 (spineName_ne_leafName si i)
        · omega
  exact key _ _ _ h rfl

/-- The direct leaf-spine link realizes cost 10. -/
theorem build_walk_direct {S L : Nat} {i j : Nat}
    (hsi : j ∈ List.range' 1 S) (hli : i ∈ List.range' 1 L) :
    IsWalk (Fabric.empty.build_spine_leaf S L).graph (leafName i) (spineName j)
      [leafName i, spineName j] 10 := by
  have he : (Fabric.empty.build_spine_leaf S L).graph.hasEdge
      (leafName i) (spineName j) = true :=
    build_hasEdge_iff.mpr ⟨j, hsi, i, hli, Or.inr ⟨rfl, rfl⟩⟩
  have := IsWalk.snoc (IsWalk.single
    (g := (Fabric.empty.build_spine_leaf S L).graph) (s := leafName i)) he
  rwa [build_edgeCost he] at this

/-- A two-hop walk via the first spine joins any two leaves at cost 20. -/
theorem build_walk_two_hop {S L : Nat} {i j : Nat} (hS : 1 ≤ S)
    (hi : i ∈ List.range' 1 L) (hj : j ∈ List.range' 1 L) :
    IsWalk (Fabric.empty.build_spine_leaf S L).graph (leafName i) (leafName j)
      [leafName i, spineName 1, leafName j] 20 := by
  have h1 : (1 : Nat) ∈ List.range' 1 S := List.mem_range'_1.mpr ⟨le_refl 1, by omega⟩
  have hw1 := build_walk_direct (S := S) (L := L) h1 hi
  have he : (Fabric.empty.build_spine_leaf S L).graph.hasEdge
      (spineName 1) (leafName j) = true :=
    build_hasEdge_iff.mpr ⟨1, h1, j, hj, Or.inl ⟨rfl, rfl⟩⟩
  have := IsWalk.snoc hw1 he
  rwa [build_edgeCost he] at this

/-- Shortest distance from a leaf to a directly linked spine is 10. -/
theorem build_shortest_leaf_spine {S L : Nat} {i j : Nat}
    (hsi : j ∈ List.range' 1 S) (hli : i ∈ List.range' 1 L) :
    IsShortestDist (Fabric.empty.build_spine_leaf S L).graph
      (leafName i) (spineName j) 10 :=
  ⟨⟨_, build_walk_direct hsi hli⟩,
    fun _ _ hw => (build_walk_to_spine hw).1⟩

/-- Shortest distance between distinct leaves is 20. -/
theorem build_shortest_leaf_leaf {S L : Nat} {i j : Nat} (hS : 1 ≤ S)
    (hij : i ≠ j) (hi : i ∈ List.range' 1 L) (hj : j ∈ List.range' 1 L) :
    IsShortestDist (Fabric.empty.build_spine_leaf S L).graph
      (leafName i) (leafName j) 20 :=
  ⟨⟨_, build_walk_two_hop hS hi hj⟩,
    fun _ _ hw => build_walk_leaf_leaf hij hw⟩

/-- The routing-table entry from a leaf to a directly linked spine is the
spine itself at cost 10. -/
theorem build_rt_leaf_spine {S L : Nat} {i j : Nat}
    (hsi : j ∈ List.range' 1 S) (hli : i ∈ List.range' 1 L) :
    rtGet? (compute_spf_for_node (Fabric.empty.build_spine_leaf S L).graph
      (leafName i)) (spineName j) = some (spineName j, 10) := by
  have hwf := build_wf S L
  have hreach : Reachable (Fabric.empty.build_spine_leaf S L).graph
      (leafName i) (spineName j) := ⟨_, _, build_walk_direct hsi hli⟩
  obtain ⟨⟨nh, d⟩, hv⟩ := (rtGet?_spf_isSome_iff hwf).mpr
    ⟨hreach, (spineName_ne_leafName j i)⟩
  obtain ⟨hshort, -, p, hw, -, hsecond⟩ := rtGet?_spf_sound hwf hv
  have hd : d = 10 := shortest_unique hshort (build_shortest_leaf_spine hsi hli)
  subst hd
  have hp := (build_walk_to_spine hw).2 rfl
  rw [hp] at hsecond
  simp only [List.get?] at hsecond
  have hnh : nh = spineName j := by
    injection hsecond with h
    exact h.symm
  rw [hv, hnh]

/-! ### Dictionary and set lemmas -/

section DictLemmas

variable {κ β : Type} [DecidableEq κ]

theorem dictGet?_isSome_iff {d : List (κ × β)} {k : κ} :
    (dictGet? d k).isSome ↔ ∃ kv ∈ d, kv.1 = k := by
  induction d with
  | nil => simp [dictGet?]
  | cons a t ih =>
      simp only [dictGet?]
      by_cases ha : a.1 = k
      · simp [ha]
      · rw [if_neg ha]
        rw [ih]
        constructor
        · rintro ⟨kv, hkv, hkey⟩
          exact ⟨kv, List.mem_cons_of_mem a hkv, hkey⟩
        · rintro ⟨kv, hkv, hkey⟩
          rcases List.mem_cons.mp hkv with h | h
          · exact absurd (h ▸ hkey) ha
          · exact ⟨kv, h, hkey⟩

theorem dictInsert_absent {d : List (κ × β)} {k : κ} (v : β)
    (h : dictGet? d k = none) : dictInsert d k v = d ++ [(k, v)] := by
  rw [dictInsert, if_neg]
  intro hc
  simp only [List.any_eq_true, decide_eq_true_eq] at hc
  have := dictGet?_isSome_iff.mpr hc
  rw [h] at this
  cases this

theorem dictGet?_append {d1 d2 : List (κ × β)} {k : κ} :
    dictGet? (d1 ++ d2) k =
      match dictGet? d1 k with
      | some v => some v
      | none => dictGet? d2 k := by
  induction d1 with
  | nil => simp [dictGet?]
  | cons a t ih =>
      rw [List.cons_append]
      simp only [dictGet?]
      by_cases ha : a.1 = k
      · rw [if_pos ha, if_pos ha]
      · rw [if_neg ha, if_neg ha]
        exact ih

theorem dictGet?_single {k : κ} {v : β} {k' : κ} :
    dictGet? [(k, v)] k' = if k = k' then some v else none := by
  simp only [dictGet?]

theorem dictGet?_modify {d : List (κ × β)} {k : κ} {f : β → β} {k' : κ} :
    dictGet? (dictModify d k f) k' =
      if k' = k then (dictGet? d k').map f else dictGet? d k' := by
  induction d with
  | nil =>
      simp only [dictModify, List.map_nil, dictGet?]
      split <;> rfl
  | cons a t ih =>
      simp only [dictModify, List.map_cons] at ih ⊢
      by_cases ha : a.1 = k
      · rw [if_pos ha]
        simp only [dictGet?]
        by_cases hk : k' = k
        · rw [if_pos hk, if_pos (show k = k' from hk.symm),
            if_pos (show a.1 = k' from hk ▸ ha)]
          rfl
        · rw [if_neg hk, if_neg (show ¬ k = k' from fun hc => hk hc.symm),
            if_neg (show ¬ a.1 = k' from fun hc => hk (ha.symm.trans hc).symm)]
          have := ih
          rw [if_neg hk] at this
          exact this
      · rw [if_neg ha]
        simp only [dictGet?]
        by_cases hk : a.1 = k'
        · rw [if_pos hk, if_pos hk,
            if_neg (show ¬ k' = k from fun hc => ha (hk.trans hc))]
        · rw [if_neg hk, if_neg hk]
          by_cases hkk : k' = k
          · rw [if_pos hkk]
            have := ih
            rw [if_pos hkk] at this
            exact this
          · rw [if_neg hkk]
            have := ih
            rw [if_neg hkk] at this
            exact this

end DictLemmas

theorem mem_setAdd {α : Type} [DecidableEq α] {s : List α} {y x : α} :
    x ∈ setAdd s y ↔ x ∈ s ∨ x = y := by
  by_cases h : y ∈ s
  · rw [setAdd, if_pos h]
    constructor
    · exact Or.inl
    · rintro (hx | rfl)
      · exact hx
      · exact h
  · rw [setAdd, if_neg h]
    simp [List.mem_append]

theorem setAdd_nodup {α : Type} [DecidableEq α] {s : List α} (y : α)
    (h : s.Nodup) : (setAdd s y).Nodup := by
  by_cases hy : y ∈ s
  · rw [setAdd, if_pos hy]
    exact h
  · rw [setAdd, if_neg hy]
    rw [List.nodup_append]
    exact ⟨h, List.nodup_singleton y, fun a ha hb =>
      hy ((List.mem_singleton.mp hb) ▸ ha)⟩

theorem setAdd_of_mem {α : Type} [DecidableEq α] {s : List α} {y : α}
    (h : y ∈ s) : setAdd s y = s := by
  rw [setAdd, if_pos h]

theorem setAdd_self_mem {α : Type} [DecidableEq α] (s : List α) (y : α) :
    y ∈ setAdd s y := by
  by_cases h : y ∈ s
  · rw [setAdd_of_mem h]
    exact h
  · rw [setAdd, if_neg h]
    exact List.mem_append_right _ (List.mem_singleton.mpr rfl)

/-! ### Overlay invariants -/

/-- The operations the overlay exposes for building state. -/
inductive OverlayOp where
  | addSeg : Nat → String → OverlayOp
  | attach : String → String → List Nat → OverlayOp

/-- Apply one operation. -/
def applyOverlayOp (o : VXLANOverlay) : OverlayOp → VXLANOverlay
  | OverlayOp.addSeg vni_id name => o.add_vni vni_id name
  | OverlayOp.attach node ip vnis => o.attach_vtep node ip vnis

/-- The overlay state after a sequence of operations on a fresh overlay. -/
def applyOverlayOps (ops : List OverlayOp) : VXLANOverlay :=
  ops.foldl applyOverlayOp VXLANOverlay.empty

/-- `e` is a member of segment `s`. -/
def memberOf (o : VXLANOverlay) (s : Nat) (e : String) : Prop :=
  ∃ v, dictGet? o.vnis s = some v ∧ e ∈ v.members

/-- Segment `s` is in endpoint `e`'s segment-id set. -/
def segOf (o : VXLANOverlay) (e : String) (s : Nat) : Prop :=
  ∃ t, dictGet? o.vteps e = some t ∧ s ∈ t.vnis

/-- Bidirectional consistency between segment membership and
endpoint segment-id sets. -/
def Consistent (o : VXLANOverlay) : Prop :=
  ∀ e s, memberOf o s e ↔ segOf o e s

/-- All member sets and segment-id sets are duplicate-free. -/
def OverlayWf (o : VXLANOverlay) : Prop :=
  (∀ kv ∈ o.vnis, kv.2.members.Nodup) ∧ (∀ kv ∈ o.vteps, kv.2.vnis.Nodup)

instance (o : VXLANOverlay) : Decidable (OverlayWf o) := by
  unfold OverlayWf
  infer_instance

theorem add_vni_consistent {o : VXLANOverlay} (hc : Consistent o)
    (vni_id : Nat) (name : String) : Consistent (o.add_vni vni_id name) := by
  unfold VXLANOverlay.add_vni
  by_cases hp : (dictGet? o.vnis vni_id).isSome
  · rw [if_pos hp]
    exact hc
  · rw [if_neg hp]
    have hnone : dictGet? o.vnis vni_id = none :=
      Option.not_isSome_iff_eq_none.mp hp
    intro e s
    simp only [memberOf, segOf, dictInsert_absent _ hnone]
    rw [dictGet?_append]
    by_cases hs : s = vni_id
    · subst hs
      rw [hnone]
      simp only [dictGet?_single, if_pos rfl]
      constructor
      · rintro ⟨v, hv, hmem⟩
        injection hv with hv
        rw [← hv] at hmem
        cases hmem
      · intro hseg
        have := (hc e s).mpr hseg
        obtain ⟨v, hv, -⟩ := this
        rw [hnone] at hv
        cases hv
    · have : dictGet? [(vni_id, ({ id := vni_id, name := name } : VNI))] s = none := by
        rw [dictGet?_single, if_neg (fun hc' => hs hc'.symm)]
      cases hv : dictGet? o.vnis s with
      | none =>
          simp only [this]
          constructor
          · rintro ⟨v, hv', -⟩
            cases hv'
          · intro hseg
            obtain ⟨v, hv', -⟩ := (hc e s).mpr hseg
            rw [hv] at hv'
            cases hv'
      | some v =>
          constructor
          · rintro ⟨v', hv', hmem⟩
            injection hv' with hv'
            exact (hc e s).mp ⟨v, hv, hv' ▸ hmem⟩
          · intro hseg
            obtain ⟨v', hv', hmem⟩ := (hc e s).mpr hseg
            rw [hv] at hv'
            injection hv' with hv'
            exact ⟨v, rfl, hv' ▸ hmem⟩

theorem add_vni_wf {o : VXLANOverlay} (hwf : OverlayWf o)
    (vni_id : Nat) (name : String) : OverlayWf (o.add_vni vni_id name) := by
  unfold VXLANOverlay.add_vni
  by_cases hp : (dictGet? o.vnis vni_id).isSome
  · rw [if_pos hp]
    exact hwf
  · rw [if_neg hp]
    have hnone : dictGet? o.vnis vni_id = none :=
      Option.not_isSome_iff_eq_none.mp hp
    refine ⟨?_, hwf.2⟩
    intro kv hkv
    rw [dictInsert_absent _ hnone] at hkv
    rcases List.mem_append.mp hkv with h | h
    · exact hwf.1 kv h
    · rcases List.mem_singleton.mp h with rfl
      exact List.nodup_nil

/-- Lookup of segments after `add_vni`: existing entries unchanged, the
added segment present. -/
theorem add_vni_lookup {o : VXLANOverlay} (vni_id : Nat) (name : String)
    (s : Nat) :
    dictGet? (o.add_vni vni_id name).vnis s =
      match dictGet? o.vnis s with
      | some v => some v
      | none => if s = vni_id then some { id := vni_id, name := name } else none := by
  unfold VXLANOverlay.add_vni
  by_cases hp : (dictGet? o.vnis vni_id).isSome
  · rw [if_pos hp]
    cases hv : dictGet? o.vnis s with
    | some v => rfl
    | none =>
        by_cases hs : s = vni_id
        · subst hs
          rw [hv] at hp
          cases hp
        · simp [hs]
  · rw [if_neg hp]
    have hnone : dictGet? o.vnis vni_id = none :=
      Option.not_isSome_iff_eq_none.mp hp
    simp only [dictInsert_absent _ hnone, dictGet?_append]
    cases hv : dictGet? o.vnis s with
    | some v => rfl
    | none =>
        rw [dictGet?_single]
        by_cases hs : s = vni_id
        · rw [if_pos hs, if_pos hs.symm]
        · rw [if_neg hs, if_neg (fun hc => hs hc.symm)]

/-- `add_vni` leaves endpoints untouched. -/
theorem add_vni_vteps (o : VXLANOverlay) (vni_id : Nat) (name : String) :
    (o.add_vni vni_id name).vteps = o.vteps := by
  unfold VXLANOverlay.add_vni
  split <;> rfl

/-- The member list of a segment (empty when the segment is absent). -/
def membersOf (o : VXLANOverlay) (s : Nat) : List String :=
  match dictGet? o.vnis s with
  | some v => v.members
  | none => []

theorem memberOf_iff_mem_membersOf {o : VXLANOverlay} {s : Nat} {e : String} :
    memberOf o s e ↔ e ∈ membersOf o s := by
  unfold memberOf membersOf
  cases hv : dictGet? o.vnis s with
  | none =>
      simp only [List.not_mem_nil, iff_false]
      rintro ⟨v, hv', -⟩
      cases hv'
  | some v =>
      constructor
      · rintro ⟨v', hv', hmem⟩
        injection hv' with hv'
        exact hv' ▸ hmem
      · intro hmem
        exact ⟨v, rfl, hmem⟩

/-! #### `attachStep` lookups -/

theorem attachStep_vnis_ne {o : VXLANOverlay} {n : String} {vni_id s : Nat}
    (hs : s ≠ vni_id) :
    dictGet? (attachStep n o vni_id).vnis s = dictGet? o.vnis s := by
  unfold attachStep
  simp only [dictGet?_modify, if_neg hs, add_vni_lookup]
  cases hv : dictGet? o.vnis s with
  | some v => rfl
  | none => rfl

theorem attachStep_vnis_self {o : VXLANOverlay} (n : String) (vni_id : Nat) :
    ∃ v, dictGet? (attachStep n o vni_id).vnis vni_id = some v ∧
      v.members = setAdd (membersOf o vni_id) n := by
  unfold attachStep membersOf
  simp only [dictGet?_modify, add_vni_lookup, eq_self_iff_true, if_true]
  cases hv : dictGet? o.vnis vni_id with
  | some v => exact ⟨_, rfl, rfl⟩
  | none => exact ⟨_, rfl, rfl⟩

theorem attachStep_vteps {o : VXLANOverlay} {n : String} {vni_id : Nat}
    (e : String) :
    dictGet? (attachStep n o vni_id).vteps e =
      if e = n then (dictGet? o.vteps e).map
        (fun t => { t with vnis := setAdd t.vnis vni_id })
      else dictGet? o.vteps e := by
  unfold attachStep
  simp only [dictGet?_modify, add_vni_vteps]

/-! #### Consistency through `attachStep` and `attachInit` -/

theorem attachStep_consistent {o : VXLANOverlay} {n : String}
    (hc : Consistent o) (hp : (dictGet? o.vteps n).isSome)
    (vni_id : Nat) : Consistent (attachStep n o vni_id) := by
  intro e s
  unfold memberOf segOf
  by_cases hs : s = vni_id
  · subst hs
    obtain ⟨v, hv, hmem⟩ := attachStep_vnis_self (o := o) n s
    rw [hv]
    by_cases he : e = n
    · subst he
      obtain ⟨t, ht⟩ := Option.isSome_iff_exists.mp hp
      rw [attachStep_vteps e, if_pos rfl, ht]
      constructor
      · intro _
        exact ⟨_, rfl, setAdd_self_mem _ _⟩
      · intro _
        exact ⟨v, rfl, hmem ▸ setAdd_self_mem _ _⟩
    · rw [attachStep_vteps e, if_neg he]
      have h1 : e ∈ v.members ↔ e ∈ membersOf o s := by
        rw [hmem, mem_setAdd]
        constructor
        · rintro (h | rfl)
          · exact h
          · exact absurd rfl he
        · exact Or.inl
      have h2 : memberOf o s e ↔ segOf o e s := hc e s
      rw [memberOf_iff_mem_membersOf] at h2
      unfold segOf at h2
      constructor
      · rintro ⟨v', hv', hm⟩
        injection hv' with hv'
        exact h2.mp (h1.mp (hv' ▸ hm))
      · intro hseg
        exact ⟨v, rfl, h1.mpr (h2.mpr hseg)⟩
  · rw [attachStep_vnis_ne hs]
    by_cases he : e = n
    · subst he
      obtain ⟨t, ht⟩ := Option.isSome_iff_exists.mp hp
      rw [attachStep_vteps e, if_pos rfl, ht]
      have h2 := hc e s
      unfold memberOf segOf at h2
      rw [ht] at h2
      constructor
      · intro hm
        obtain ⟨t', ht', hvni⟩ := h2.mp hm
        injection ht' with ht'
        refine ⟨_, rfl, ?_⟩
        rw [mem_setAdd]
        exact Or.inl (ht' ▸ hvni)
      · rintro ⟨t', ht', hvni⟩
        injection ht' with ht'
        rw [← ht'] at hvni
        simp only [mem_setAdd] at hvni
        rcases hvni with h | h
        · exact h2.mpr ⟨t, rfl, h⟩
        · exact absurd h hs
    · rw [attachStep_vteps e, if_neg he]
      exact hc e s

theorem attachStep_vtep_present {o : VXLANOverlay} {n : String}
    (hp : (dictGet? o.vteps n).isSome) (vni_id : Nat) :
    (dictGet? (attachStep n o vni_id).vteps n).isSome := by
  rw [attachStep_vteps n, if_pos rfl]
  obtain ⟨t, ht⟩ := Option.isSome_iff_exists.mp hp
  rw [ht]
  rfl

theorem attachStep_wf {o : VXLANOverlay} {n : String} (hwf : OverlayWf o)
    (vni_id : Nat) : OverlayWf (attachStep n o vni_id) := by
  have hwf2 := add_vni_wf hwf vni_id ("VNI-" ++ Nat.repr vni_id)
  constructor
  · intro kv hkv
    unfold attachStep at hkv
    simp only [dictModify, List.mem_map] at hkv
    obtain ⟨kv', hkv', heq⟩ := hkv
    by_cases h : kv'.1 = vni_id
    · rw [if_pos h] at heq
      subst heq
      exact setAdd_nodup _ (hwf2.1 kv' hkv')
    · rw [if_neg h] at heq
      subst heq
      exact hwf2.1 kv' hkv'
  · intro kv hkv
    unfold attachStep at hkv
    simp only [add_vni_vteps, dictModify, List.mem_map] at hkv
    obtain ⟨kv', hkv', heq⟩ := hkv
    by_cases h : kv'.1 = n
    · rw [if_pos h] at heq
      subst heq
      exact setAdd_nodup _ (hwf.2 kv' hkv')
    · rw [if_neg h] at heq
      subst heq
      exact hwf.2 kv' hkv'

theorem attachInit_vnis (o : VXLANOverlay) (n ip : String) :
    (attachInit o n ip).vnis = o.vnis := by
  unfold attachInit
  split <;> rfl

/-- Transporting `segOf`-style statements through a vnis-preserving map
on an optional endpoint. -/
theorem exists_vnis_map {ot : Option VTEP} {f : VTEP → VTEP}
    (hf : ∀ t, (f t).vnis = t.vnis) {s : Nat} :
    (∃ t, ot.map f = some t ∧ s ∈ t.vnis) ↔
      (∃ t, ot = some t ∧ s ∈ t.vnis) := by
  cases ot with
  | none => simp
  | some t =>
      simp only [Option.map_some']
      constructor
      · rintro ⟨t', ht', hs⟩
        injection ht' with ht'
        refine ⟨t, rfl, ?_⟩
        rw [← hf t, ht']
        exact hs
      · rintro ⟨t', ht', hs⟩
        injection ht' with ht'
        refine ⟨f t, rfl, ?_⟩
        rw [hf t, ht']
        exact hs

theorem attachInit_consistent {o : VXLANOverlay} (hc : Consistent o)
    (n ip : String) : Consistent (attachInit o n ip) := by
  intro e s
  have hm : memberOf (attachInit o n ip) s e ↔ memberOf o s e := by
    unfold memberOf
    rw [attachInit_vnis]
  rw [hm]
  unfold attachInit
  by_cases hp : (dictGet? o.vteps n).isSome
  · rw [if_pos hp]
    unfold segOf
    simp only [dictGet?_modify]
    by_cases he : e = n
    · rw [if_pos he]
      rw [exists_vnis_map (f := fun v => { v with ip := ip }) (fun t => rfl)]
      exact hc e s
    · rw [if_neg he]
      exact hc e s
  · rw [if_neg hp]
    have hnone : dictGet? o.vteps n = none :=
      Option.not_isSome_iff_eq_none.mp hp
    unfold segOf
    simp only [dictInsert_absent _ hnone, dictGet?_append]
    by_cases he : e = n
    · subst he
      rw [hnone]
      simp only [dictGet?_single, if_pos rfl]
      have h2 := hc e s
      unfold segOf at h2
      rw [hnone] at h2
      rw [h2]
      constructor
      · rintro ⟨t, ht, -⟩
        cases ht
      · rintro ⟨t, ht, hvni⟩
        injection ht with ht
        rw [← ht] at hvni
        cases hvni
    · have hsingle : dictGet? [(n, ({ name := n, ip := ip } : VTEP))] e = none := by
        rw [dictGet?_single, if_neg (fun hc' => he hc'.symm)]
      have h2 := hc e s
      unfold segOf at h2
      cases ht : dictGet? o.vteps e with
      | none =>
          rw [ht] at h2
          simp only [hsingle]
          rw [h2]
      | some t =>
          rw [ht] at h2
          rw [h2]

theorem attachInit_vtep_present (o : VXLANOverlay) (n ip : String) :
    (dictGet? (attachInit o n ip).vteps n).isSome := by
  unfold attachInit
  by_cases hp : (dictGet? o.vteps n).isSome
  · rw [if_pos hp]
    simp only [dictGet?_modify, if_pos rfl]
    obtain ⟨t, ht⟩ := Option.isSome_iff_exists.mp hp
    rw [ht]
    rfl
  · rw [if_neg hp]
    have hnone : dictGet? o.vteps n = none :=
      Option.not_isSome_iff_eq_none.mp hp
    simp only [dictInsert_absent _ hnone, dictGet?_append, hnone,
      dictGet?_single, if_pos rfl]
    rfl

theorem attachInit_wf {o : VXLANOverlay} (hwf : OverlayWf o) (n ip : String) :
    OverlayWf (attachInit o n ip) := by
  unfold attachInit
  by_cases hp : (dictGet? o.vteps n).isSome
  · rw [if_pos hp]
    refine ⟨hwf.1, ?_⟩
    intro kv hkv
    simp only [dictModify, List.mem_map] at hkv
    obtain ⟨kv', hkv', heq⟩ := hkv
    by_cases h : kv'.1 = n
    · rw [if_pos h] at heq
      subst heq
      exact hwf.2 kv' hkv'
    · rw [if_neg h] at heq
      subst heq
      exact hwf.2 kv' hkv'
  · rw [if_neg hp]
    have hnone : dictGet? o.vteps n = none :=
      Option.not_isSome_iff_eq_none.mp hp
    refine ⟨hwf.1, ?_⟩
    intro kv hkv
    rw [dictInsert_absent _ hnone] at hkv
    rcases List.mem_append.mp hkv with h | h
    · exact hwf.2 kv h
    · rcases List.mem_singleton.mp h with rfl
      exact List.nodup_nil

/-! #### `attach_vtep` preserves the invariants -/

theorem attach_fold_invariant {n : String} :
    ∀ (ids : List Nat) (o : VXLANOverlay), Consistent o → OverlayWf o →
      (dictGet? o.vteps n).isSome →
      Consistent (ids.foldl (attachStep n) o) ∧
      OverlayWf (ids.foldl (attachStep n) o) ∧
      (dictGet? (ids.foldl (attachStep n) o).vteps n).isSome := by
  intro ids
  induction ids with
  | nil => intro o hc hwf hp; exact ⟨hc, hwf, hp⟩
  | cons a t ih =>
      intro o hc hwf hp
      exact ih (attachStep n o a) (attachStep_consistent hc hp a)
        (attachStep_wf hwf a) (attachStep_vtep_present hp a)

theorem attach_vtep_consistent {o : VXLANOverlay} (hc : Consistent o)
    (hwf : OverlayWf o) (n ip : String) (ids : List Nat) :
    Consistent (o.attach_vtep n ip ids) := by
  unfold VXLANOverlay.attach_vtep
  exact (attach_fold_invariant ids (attachInit o n ip)
    (attachInit_consistent hc n ip) (attachInit_wf hwf n ip)
    (attachInit_vtep_present o n ip)).1

theorem attach_vtep_wf {o : VXLANOverlay} (hc : Consistent o)
    (hwf : OverlayWf o) (n ip : String) (ids : List Nat) :
    OverlayWf (o.attach_vtep n ip ids) := by
  unfold VXLANOverlay.attach_vtep
  exact (attach_fold_invariant ids (attachInit o n ip)
    (attachInit_consistent hc n ip) (attachInit_wf hwf n ip)
    (attachInit_vtep_present o n ip)).2.1

/-- Every operation sequence started from the empty overlay yields a
consistent, well-formed state. -/
theorem applyOverlayOps_invariant (ops : List OverlayOp) :
    Consistent (applyOverlayOps ops) ∧ OverlayWf (applyOverlayOps ops) := by
  unfold applyOverlayOps
  have key : ∀ (l : List OverlayOp) (o : VXLANOverlay),
      Consistent o → OverlayWf o →
      Consistent (l.foldl applyOverlayOp o) ∧ OverlayWf (l.foldl applyOverlayOp o) := by
    intro l
    induction l with
    | nil => intro o hc hwf; exact ⟨hc, hwf⟩
    | cons op t ih =>
        intro o hc hwf
        cases op with
        | addSeg vni_id name =>
            exact ih _ (add_vni_consistent hc vni_id name)
              (add_vni_wf hwf vni_id name)
        | attach node ip vnis =>
            exact ih _ (attach_vtep_consistent hc hwf node ip vnis)
              (attach_vtep_wf hc hwf node ip vnis)
  refine key ops VXLANOverlay.empty ?_ ?_
  · intro e s
    unfold memberOf segOf VXLANOverlay.empty
    simp [dictGet?]
  · exact ⟨(fun kv hkv => absurd hkv (List.not_mem_nil kv)), (fun kv hkv => absurd hkv (List.not_mem_nil kv))⟩

/-! #### Stability and establishment of membership (idempotence) -/

theorem dictGet?_mem {κ β : Type} [DecidableEq κ] :
    ∀ {d : List (κ × β)} {k : κ} {v : β}, dictGet? d k = some v → (k, v) ∈ d := by
  intro d
  induction d with
  | nil => intro k v h; cases h
  | cons a t ih =>
      intro k v h
      simp only [dictGet?] at h
      by_cases ha : a.1 = k
      · rw [if_pos ha] at h
        injection h with h
        have heq : a = (k, v) := Prod.ext ha h
        rw [← heq]
        exact List.mem_cons_self a t
      · rw [if_neg ha] at h
        exact List.mem_cons_of_mem a (ih h)

theorem membersOf_nodup {o : VXLANOverlay} (hwf : OverlayWf o) (s : Nat) :
    (membersOf o s).Nodup := by
  unfold membersOf
  cases hv : dictGet? o.vnis s with
  | none => exact List.nodup_nil
  | some v => exact hwf.1 (s, v) (dictGet?_mem hv)

theorem attachStep_vnis_stable {o : VXLANOverlay} {n : String}
    {vni_id s : Nat} {v : VNI} (hv : dictGet? o.vnis s = some v)
    (hn : n ∈ v.members) :
    dictGet? (attachStep n o vni_id).vnis s = some v := by
  by_cases hs : s = vni_id
  · subst hs
    unfold attachStep
    simp only [dictGet?_modify, eq_self_iff_true, if_true, add_vni_lookup, hv]
    show some { v with members := setAdd v.members n } = some v
    rw [setAdd_of_mem hn]
  · rw [attachStep_vnis_ne hs, hv]

theorem fold_vnis_stable {n : String} :
    ∀ (ids : List Nat) (o : VXLANOverlay) {s : Nat} {v : VNI},
      dictGet? o.vnis s = some v → n ∈ v.members →
      dictGet? ((ids.foldl (attachStep n) o)).vnis s = some v := by
  intro ids
  induction ids with
  | nil => intro o s v hv _; exact hv
  | cons a t ih =>
      intro o s v hv hn
      exact ih (attachStep n o a) (attachStep_vnis_stable hv hn) hn

theorem fold_vnis_establish {n : String} :
    ∀ (ids : List Nat) (o : VXLANOverlay) {s : Nat}, s ∈ ids → OverlayWf o →
      ∃ v, dictGet? ((ids.foldl (attachStep n) o)).vnis s = some v ∧
        n ∈ v.members ∧ v.members.Nodup := by
  intro ids
  induction ids with
  | nil => intro o s hs; cases hs
  | cons a t ih =>
      intro o s hs hwf
      by_cases ha : a = s
      · subst ha
        obtain ⟨v, hv, hmem⟩ := attachStep_vnis_self (o := o) n a
        refine ⟨v, fold_vnis_stable t (attachStep n o a) hv ?_, ?_, ?_⟩
        · rw [hmem]
          exact setAdd_self_mem _ _
        · rw [hmem]
          exact setAdd_self_mem _ _
        · rw [hmem]
          exact setAdd_nodup _ (membersOf_nodup hwf a)
      · rcases List.mem_cons.mp hs with h | h
        · exact absurd h.symm ha
        · exact ih (attachStep n o a) h (attachStep_wf hwf a)

theorem attach_vtep_vnis_establish {o : VXLANOverlay} (n ip : String)
    {ids : List Nat} {s : Nat} (hs : s ∈ ids) (hwf : OverlayWf o) :
    ∃ v, dictGet? (o.attach_vtep n ip ids).vnis s = some v ∧
      n ∈ v.members ∧ v.members.Nodup := by
  unfold VXLANOverlay.attach_vtep
  exact fold_vnis_establish ids (attachInit o n ip) hs (attachInit_wf hwf n ip)

theorem attach_vtep_vnis_stable {o : VXLANOverlay} {n : String}
    (ip : String) (ids : List Nat) {s : Nat} {v : VNI}
    (hv : dictGet? o.vnis s = some v) (hn : n ∈ v.members) :
    dictGet? (o.attach_vtep n ip ids).vnis s = some v := by
  unfold VXLANOverlay.attach_vtep
  refine fold_vnis_stable ids (attachInit o n ip) ?_ hn
  rw [attachInit_vnis]
  exact hv

/-! #### All-pairs enumeration -/

/-- Lexicographic order on tunnel pairs. -/
def pairLt (p q : String × String) : Prop :=
  strLt p.1 q.1 ∨ (p.1 = q.1 ∧ strLt p.2 q.2)

theorem pairsOf_length : ∀ l : List String,
    (pairsOf l).length * 2 = l.length * (l.length - 1)
  | [] => rfl
  | x :: r => by
      have ih := pairsOf_length r
      simp only [pairsOf, List.length_append, List.length_map, List.length_cons]
      cases hr : r.length with
      | zero =>
          rw [hr] at ih
          simp only [Nat.zero_sub, Nat.mul_zero, Nat.zero_mul] at ih
          omega
      | succ m =>
          rw [hr] at ih
          have h3 : (m + 1 + 1) - 1 = m + 1 := rfl
          rw [h3]
          have hsub : (m + 1) - 1 = m := rfl
          rw [hsub] at ih
          have h2 : (m + 1 + (pairsOf r).length) * 2
              = (m + 1) * 2 + (pairsOf r).length * 2 := by ring
          rw [h2, ih]
          ring

theorem pairsOf_length_div (l : List String) :
    (pairsOf l).length = l.length * (l.length - 1) / 2 :=
  (Nat.div_eq_of_eq_mul_left (by norm_num) (pairsOf_length l).symm).symm

theorem pairsOf_rel {R : String → String → Prop} :
    ∀ {l : List String}, l.Pairwise R → ∀ {a b : String},
      (a, b) ∈ pairsOf l → R a b := by
  intro l
  induction l with
  | nil => intro _ a b h; cases h
  | cons x r ih =>
      intro hp a b h
      rw [List.pairwise_cons] at hp
      rcases List.mem_append.mp h with h | h
      · obtain ⟨y, hy, heq⟩ := List.mem_map.mp h
        injection heq with h1 h2
        rw [← h1, ← h2]
        exact hp.1 y hy
      · exact ih hp.2 h

theorem pairsOf_mem_mem : ∀ {l : List String} {a b : String},
    (a, b) ∈ pairsOf l → a ∈ l ∧ b ∈ l := by
  intro l
  induction l with
  | nil => intro a b h; cases h
  | cons x r ih =>
      intro a b h
      rcases List.mem_append.mp h with h | h
      · obtain ⟨y, hy, heq⟩ := List.mem_map.mp h
        injection heq with h1 h2
        exact ⟨h1 ▸ List.mem_cons_self x r,
          h2 ▸ List.mem_cons_of_mem x hy⟩
      · obtain ⟨ha, hb⟩ := ih h
        exact ⟨List.mem_cons_of_mem x ha, List.mem_cons_of_mem x hb⟩

theorem strLt_irrefl (a : String) : ¬ strLt a a := lt_irrefl a.data

theorem strLt_asymm {a b : String} (h : strLt a b) : ¬ strLt b a :=
  lt_asymm h

theorem strLe_ne_strLt {a b : String} (h1 : strLe a b) (h2 : a ≠ b) :
    strLt a b := by
  rcases lt_or_eq_of_le h1 with h | h
  · exact h
  · exact absurd (String.ext h) h2

theorem pairsOf_complete : ∀ {l : List String}, l.Pairwise strLt →
    ∀ {a b : String}, a ∈ l → b ∈ l → strLt a b → (a, b) ∈ pairsOf l := by
  intro l
  induction l with
  | nil => intro _ a b ha; cases ha
  | cons x r ih =>
      intro hp a b ha hb hab
      rw [List.pairwise_cons] at hp
      by_cases hax : a = x
      · subst hax
        rcases List.mem_cons.mp hb with h | h
        · exact absurd (h ▸ hab) (strLt_irrefl a)
        · exact List.mem_append_left _ (List.mem_map.mpr ⟨b, h, rfl⟩)
      · have ha' : a ∈ r := by
          rcases List.mem_cons.mp ha with h | h
          · exact absurd h hax
          · exact h
        rcases List.mem_cons.mp hb with h | h
        · subst h
          exact absurd hab (strLt_asymm (hp.1 a ha'))
        · exact List.mem_append_right _ (ih hp.2 ha' h hab)

theorem pairsOf_nodup : ∀ {l : List String}, l.Nodup → (pairsOf l).Nodup := by
  intro l
  induction l with
  | nil => intro _; exact List.nodup_nil
  | cons x r ih =>
      intro h
      rw [List.nodup_cons] at h
      rw [pairsOf, List.nodup_append]
      refine ⟨h.2.map (fun y z hyz => by injection hyz), ih h.2, ?_⟩
      intro p hp hp'
      obtain ⟨y, -, heq⟩ := List.mem_map.mp hp
      have hfst := (pairsOf_mem_mem (l := r) (a := p.1) (b := p.2)
        (by simpa using hp')).1
      rw [← heq] at hfst
      exact h.1 hfst

theorem pairsOf_pairwise {l : List String} (h : l.Pairwise strLt) :
    (pairsOf l).Pairwise pairLt := by
  induction l with
  | nil => exact List.Pairwise.nil
  | cons x r ih =>
      rw [List.pairwise_cons] at h
      rw [pairsOf, List.pairwise_append]
      refine ⟨?_, ih h.2, ?_⟩
      · rw [List.pairwise_map]
        exact h.2.imp (fun hyz => Or.inr ⟨rfl, hyz⟩)
      · intro p hp q hq
        obtain ⟨y, -, heq⟩ := List.mem_map.mp hp
        have hfst := (pairsOf_mem_mem (l := r) (a := q.1) (b := q.2)
          (by simpa using hq)).1
        left
        rw [← heq]
        exact h.1 q.1 hfst

theorem pairsOf_short : ∀ {l : List String}, l.length < 2 → pairsOf l = []
  | [], _ => rfl
  | [_], _ => rfl
  | _ :: _ :: t, h => by
      simp only [List.length_cons] at h
      omega

/-- A member of a duplicate-free list is counted exactly once. -/
theorem count_eq_one_of_mem_pairs {l : List (String × String)}
    {p : String × String} (hn : l.Nodup) (hm : p ∈ l) : l.count p = 1 := by
  induction l with
  | nil => cases hm
  | cons x t ih =>
      rw [List.nodup_cons] at hn
      rcases List.mem_cons.mp hm with rfl | hm'
      · have hx : t.count p = 0 := List.count_eq_zero.mpr hn.1
        simp [List.count_cons, hx]
      · have hne : x ≠ p := fun hc => hn.1 (hc ▸ hm')
        simp [List.count_cons, ih hn.2 hm', hne, Ne.symm hne]

/-! #### Sorting facts -/

theorem sortStrings_perm (l : List String) : List.Perm (sortStrings l) l :=
  List.perm_insertionSort strLe l

theorem sortStrings_mem {l : List String} {x : String} :
    x ∈ sortStrings l ↔ x ∈ l :=
  (sortStrings_perm l).mem_iff

theorem sortStrings_length (l : List String) :
    (sortStrings l).length = l.length :=
  (sortStrings_perm l).length_eq

theorem sortStrings_sorted (l : List String) :
    (sortStrings l).Pairwise strLe :=
  List.sorted_insertionSort strLe l

theorem sortStrings_nodup {l : List String} (h : l.Nodup) :
    (sortStrings l).Nodup :=
  ((sortStrings_perm l).nodup_iff).mpr h

theorem sortStrings_pairwise_lt {l : List String} (h : l.Nodup) :
    (sortStrings l).Pairwise strLt := by
  have h1 := sortStrings_sorted l
  have h2 : (sortStrings l).Pairwise (fun a b => a ≠ b) := sortStrings_nodup h
  have h3 := List.Pairwise.and h1 h2
  exact h3.imp (fun hab => strLe_ne_strLt hab.1 hab.2)

/-! ### Symmetry of computed costs -/

theorem spf_cost_symm {g : Graph} (hwf : g.Wf) {a b nh : String} {d : Nat}
    (h : rtGet? (compute_spf_for_node g a) b = some (nh, d)) :
    ∃ nh', rtGet? (compute_spf_for_node g b) a = some (nh', d) := by
  obtain ⟨hshort, hne, -⟩ := rtGet?_spf_sound hwf h
  have hshort' := shortest_symm hshort
  have hreach : Reachable g b a := by
    obtain ⟨⟨p, hw⟩, -⟩ := hshort
    exact reachable_symm ⟨p, d, hw⟩
  obtain ⟨⟨nh', d'⟩, hv⟩ := (rtGet?_spf_isSome_iff hwf).mpr ⟨hreach, hne.symm⟩
  obtain ⟨hshort2, -, -⟩ := rtGet?_spf_sound hwf hv
  have hd : d' = d := shortest_unique hshort2 hshort'
  exact ⟨nh', hd ▸ hv⟩

/-- Inverse of `dictGet?_map_self`. -/
theorem dictGet?_map_self_inv {β : Type} (f : String → β) :
    ∀ {l : List String} {a : String} {v : β},
      dictGet? (l.map (fun n => (n, f n))) a = some v → a ∈ l ∧ v = f a := by
  intro l
  induction l with
  | nil => intro a v h; cases h
  | cons b t ih =>
      intro a v h
      simp only [List.map_cons, dictGet?] at h
      by_cases hb : b = a
      · rw [if_pos hb] at h
        injection h with h
        exact ⟨hb ▸ List.mem_cons_self b t, h.symm.trans (by rw [hb])⟩
      · rw [if_neg hb] at h
        obtain ⟨hmem, hval⟩ := ih h
        exact ⟨List.mem_cons_of_mem b hmem, hval⟩

theorem install_routes_lookup_inv {g : Graph} {a : String}
    {rta : List (String × String × Nat)}
    (h : dictGet? (install_routes_for_all g) a = some rta) :
    a ∈ g.nodes ∧ rta = compute_spf_for_node g a :=
  dictGet?_map_self_inv (compute_spf_for_node g) h

/-! ### Fabric construction sequences (`add_node` / `add_link`) -/

/-- The mutating operations `Fabric` exposes for incremental
construction. -/
inductive FabricOp where
  | addNode : Node → FabricOp
  | addLink : Link → FabricOp

/-- Apply one operation. -/
def applyFabricOp (f : Fabric) : FabricOp → Fabric
  | FabricOp.addNode n => f.add_node n
  | FabricOp.addLink l => f.add_link l

/-- The fabric obtained from a fresh `Fabric()` by a sequence of
operations. -/
def applyFabricOps (ops : List FabricOp) : Fabric :=
  ops.foldl applyFabricOp Fabric.empty

/-- Whether every `add_link` in the sequence references only nodes
registered at the time it runs. -/
def validLinkSeq : Fabric → List FabricOp → Bool
  | _, [] => true
  | f, op :: rest =>
      (match op with
       | FabricOp.addLink l =>
           decide (l.a ∈ f.graph.nodes) && decide (l.b ∈ f.graph.nodes)
       | FabricOp.addNode _ => true) && validLinkSeq (applyFabricOp f op) rest

theorem mem_addNodeG {g : Graph} {n v : String} :
    v ∈ (g.addNodeG n).nodes ↔ v ∈ g.nodes ∨ v = n := by
  unfold Graph.addNodeG
  by_cases h : n ∈ g.nodes
  · rw [if_pos h]
    constructor
    · exact Or.inl
    · rintro (hv | rfl)
      · exact hv
      · exact h
  · rw [if_neg h]
    simp [List.mem_append]

theorem dictInsert_isSome {κ β : Type} [DecidableEq κ]
    {d : List (κ × β)} {k : κ} {x : β} {k' : κ} :
    (dictGet? (dictInsert d k x) k').isSome ↔
      (dictGet? d k').isSome ∨ k' = k := by
  rw [dictGet?_isSome_iff, dictGet?_isSome_iff]
  unfold dictInsert
  by_cases hp : d.any (fun kv => kv.1 = k)
  · rw [if_pos hp]
    simp only [List.any_eq_true, decide_eq_true_eq] at hp
    constructor
    · rintro ⟨kv, hkv, hkey⟩
      obtain ⟨kv0, hkv0, heq⟩ := List.mem_map.mp hkv
      by_cases h0 : kv0.1 = k
      · rw [if_pos h0] at heq
        subst heq
        exact Or.inl ⟨kv0, hkv0, h0.trans hkey⟩
      · rw [if_neg h0] at heq
        subst heq
        exact Or.inl ⟨kv0, hkv0, hkey⟩
    · intro hcase
      have hkey : ∃ kv ∈ d, kv.1 = k' := by
        rcases hcase with h | h
        · exact h
        · obtain ⟨kv, hkv, hkey⟩ := hp
          exact ⟨kv, hkv, hkey.trans h.symm⟩
      obtain ⟨kv, hkv, hkey⟩ := hkey
      by_cases h0 : kv.1 = k
      · exact ⟨(k, x), List.mem_map.mpr ⟨kv, hkv, by rw [if_pos h0]⟩,
          h0 ▸ hkey⟩
      · exact ⟨kv, List.mem_map.mpr ⟨kv, hkv, by rw [if_neg h0]⟩, hkey⟩
  · rw [if_neg hp]
    constructor
    · rintro ⟨kv, hkv, hkey⟩
      rcases List.mem_append.mp hkv with h | h
      · exact Or.inl ⟨kv, h, hkey⟩
      · rcases List.mem_singleton.mp h with rfl
        exact Or.inr hkey.symm
    · intro hcase
      rcases hcase with ⟨kv, hkv, hkey⟩ | rfl
      · exact ⟨kv, List.mem_append_left _ hkv, hkey⟩
      · exact ⟨(k', x), List.mem_append_right _ (List.mem_singleton.mpr rfl), rfl⟩

/-- The graph-vertex / registered-node correspondence, preserved by any
operation sequence whose links always reference registered nodes. -/
theorem validLinkSeq_invariant :
    ∀ (ops : List FabricOp) (f : Fabric),
      (∀ v, v ∈ f.graph.nodes ↔ (dictGet? f.nodes v).isSome) →
      validLinkSeq f ops = true →
      ∀ v, v ∈ (ops.foldl applyFabricOp f).graph.nodes ↔
        (dictGet? (ops.foldl applyFabricOp f).nodes v).isSome := by
  intro ops
  induction ops with
  | nil => intro f hinv _; exact hinv
  | cons op rest ih =>
      intro f hinv hvalid
      simp only [validLinkSeq, Bool.and_eq_true] at hvalid
      refine ih (applyFabricOp f op) ?_ hvalid.2
      cases op with
      | addNode n =>
          intro v
          simp only [applyFabricOp, Fabric.add_node]
          rw [mem_addNodeG, dictInsert_isSome, hinv v]
      | addLink l =>
          obtain ⟨ha, hb⟩ := Bool.and_eq_true _ _ ▸ hvalid.1
          rw [decide_eq_true_eq] at ha hb
          intro v
          simp only [applyFabricOp, Fabric.add_link, Graph.addEdgeG]
          have hnoadd : (f.graph.addNodeG l.a).addNodeG l.b = f.graph := by
            simp only [Graph.addNodeG, if_pos ha]
            rw [if_pos hb]
          rw [hnoadd]
          split <;> exact hinv v

/-! ### Serialized node records -/

theorem nodeRecord_vtep (n : Node) :
    dictGet? (nodeRecord n) "vtep_ip" = some (optStrVal n.vtep_ip) := by
  simp [nodeRecord, dictGet?]

theorem nodeRecord_role (n : Node) :
    dictGet? (nodeRecord n) "role" = some (Value.vStr n.role) := by
  simp [nodeRecord, dictGet?]

theorem optStrVal_null_iff (o : Option String) :
    optStrVal o = Value.vNull ↔ o = none := by
  cases o <;> simp [optStrVal]

theorem to_dict_nodes_mem {f : Fabric} {rec : List (String × Value)} :
    rec ∈ f.to_dict.nodes ↔ ∃ kv ∈ f.nodes, rec = nodeRecord kv.2 := by
  simp only [Fabric.to_dict, List.mem_map]
  constructor
  · rintro ⟨kv, hkv, rfl⟩
    exact ⟨kv, hkv, rfl⟩
  · rintro ⟨kv, hkv, rfl⟩
    exact ⟨kv, hkv, rfl⟩

/-! ## The claims -/

/-- C1: for every well-formed undirected graph with non-negative integer
link costs and every source, every routing-table entry produced by
`compute_spf_for_node` records as cost the minimum total sum of link
costs over all paths from the source to that destination, and as
next-hop the node immediately after the source on some such
minimum-cost path (the destination itself when the shortest path is the
direct link); in particular, from a leaf of a built spine-leaf fabric to
a directly linked spine, the entry is that spine at the link cost 10. -/
theorem claim_spf_shortest :
    (∀ (g : Graph) (s dest nh : String) (d : Nat), g.Wf →
      rtGet? (compute_spf_for_node g s) dest = some (nh, d) →
      IsShortestDist g s dest d ∧
        ∃ p, IsWalk g s dest p d ∧ (∀ q e, IsWalk g s dest q e → d ≤ e) ∧
          p.get? 1 = some nh) ∧
    (∀ S L si li, si ∈ List.range' 1 S → li ∈ List.range' 1 L →
      rtGet? (compute_spf_for_node (Fabric.empty.build_spine_leaf S L).graph
        (leafName li)) (spineName si) = some (spineName si, 10)) := by
  constructor
  · intro g s dest nh d hwf h
    obtain ⟨hshort, -, p, hw, hmin, hsec⟩ := rtGet?_spf_sound hwf h
    exact ⟨hshort, p, hw, hmin, hsec⟩
  · intro S L si li hsi hli
    exact build_rt_leaf_spine hsi hli

/-- Witness for C1 at concrete inputs. -/
theorem claim_spf_shortest_witness :
    IsShortestDist (Fabric.empty.build_spine_leaf 1 1).graph "L1" "S1" 10 ∧
    rtGet? (compute_spf_for_node (Fabric.empty.build_spine_leaf 2 3).graph
      (leafName 1)) (spineName 2) = some (spineName 2, 10) :=
  ⟨(claim_spf_shortest.1 (Fabric.empty.build_spine_leaf 1 1).graph
      "L1" "S1" "S1" 10 (by decide) (by decide)).1,
   claim_spf_shortest.2 2 3 2 1 (by decide) (by decide)⟩

/-- C2: `build_spine_leaf S L` produces exactly the S spine nodes
`S1..SS` and L leaf nodes `L1..LL` in index order with deterministic
loopbacks (spines indexed 1..S, leaves S+1..S+L), tunnel endpoints
assigned to leaves only from a disjoint address family, every spine-leaf
pair directly linked at cost 10, and no spine-spine or leaf-leaf link. -/
theorem claim_build_spine_leaf (S L : Nat) :
    (Fabric.empty.build_spine_leaf S L).nodes = spineLeafNodes S L ∧
    (spineLeafNodes S L).length = S + L ∧
    (Fabric.empty.build_spine_leaf S L).graph.edges = spineLeafEdges S L ∧
    (∀ si li, si ∈ List.range' 1 S → li ∈ List.range' 1 L →
      (Fabric.empty.build_spine_leaf S L).graph.hasEdge
        (spineName si) (leafName li) = true ∧
      (Fabric.empty.build_spine_leaf S L).graph.edgeCost
        (spineName si) (leafName li) = 10) ∧
    (∀ i j, (Fabric.empty.build_spine_leaf S L).graph.hasEdge
      (spineName i) (spineName j) = false) ∧
    (∀ i j, (Fabric.empty.build_spine_leaf S L).graph.hasEdge
      (leafName i) (leafName j) = false) ∧
    (∀ i j, vtep_ip i ≠ loopback_ip j) := by
  obtain ⟨hn, -, he⟩ := build_spine_leaf_spec S L
  refine ⟨hn, ?_, he, ?_, ?_, ?_, fun i j => vtep_ip_ne_loopback_ip i j⟩
  · simp [spineLeafNodes]
  · intro si li hsi hli
    have hedge := build_hasEdge_iff.mpr ⟨si, hsi, li, hli, Or.inl ⟨rfl, rfl⟩⟩
    exact ⟨hedge, build_edgeCost hedge⟩
  · intro i j
    rw [Bool.eq_false_iff]
    intro hc
    obtain ⟨si, -, li, -, hcase⟩ := build_hasEdge_iff.mp hc
    rcases hcase with ⟨-, h2⟩ | ⟨h1, -⟩
    · exact spineName_ne_leafName j li h2
    · exact spineName_ne_leafName i li h1
  · intro i j
    rw [Bool.eq_false_iff]
    intro hc
    obtain ⟨si, -, li, -, hcase⟩ := build_hasEdge_iff.mp hc
    rcases hcase with ⟨h1, -⟩ | ⟨-, h2⟩
    · exact spineName_ne_leafName si i h1.symm
    · exact spineName_ne_leafName si j h2.symm

/-- Witness for C2 at concrete inputs. -/
theorem claim_build_spine_leaf_witness :
    (Fabric.empty.build_spine_leaf 2 3).graph.hasEdge
      (spineName 1) (leafName 3) = true ∧
    (Fabric.empty.build_spine_leaf 2 3).graph.edgeCost
      (spineName 1) (leafName 3) = 10 ∧
    vtep_ip 3 ≠ loopback_ip 3 :=
  ⟨((claim_build_spine_leaf 2 3).2.2.2.1 1 3 (by decide) (by decide)).1,
   ((claim_build_spine_leaf 2 3).2.2.2.1 1 3 (by decide) (by decide)).2,
   (claim_build_spine_leaf 2 3).2.2.2.2.2.2 3 3⟩

/-- C3: in every built spine-leaf fabric with at least one spine, the
all-node tables give cost 20 between every pair of distinct leaves, the
computed cost is symmetric, and in the 2-spine 3-leaf fabric
`rtab[L1][L2]` costs 20 via one of the spines while
`rtab[L1][S1] = (S1, 10)`. -/
theorem claim_leaf_costs_symmetric :
    (∀ S L i j, 1 ≤ S → i ∈ List.range' 1 L → j ∈ List.range' 1 L → i ≠ j →
      ∃ rt nh, dictGet? (install_routes_for_all
          (Fabric.empty.build_spine_leaf S L).graph) (leafName i) = some rt ∧
        rtGet? rt (leafName j) = some (nh, 20)) ∧
    (∀ S L (a b : String) rta (nh : String) (d : Nat),
      dictGet? (install_routes_for_all
        (Fabric.empty.build_spine_leaf S L).graph) a = some rta →
      rtGet? rta b = some (nh, d) →
      ∃ rtb nh', dictGet? (install_routes_for_all
          (Fabric.empty.build_spine_leaf S L).graph) b = some rtb ∧
        rtGet? rtb a = some (nh', d)) ∧
    ((rtGet? ((dictGet? (install_routes_for_all build_demo_fabric.graph)
        "L1").getD []) "L2" = some ("S1", 20) ∨
      rtGet? ((dictGet? (install_routes_for_all build_demo_fabric.graph)
        "L1").getD []) "L2" = some ("S2", 20)) ∧
     rtGet? ((dictGet? (install_routes_for_all build_demo_fabric.graph)
        "L1").getD []) "S1" = some ("S1", 10)) := by
  refine ⟨?_, ?_, ?_⟩
  · intro S L i j hS hi hj hij
    have hwf := build_wf S L
    have hmem : leafName i ∈ (Fabric.empty.build_spine_leaf S L).graph.nodes := by
      obtain ⟨-, hg, -⟩ := build_spine_leaf_spec S L
      rw [hg]
      exact List.mem_append_right _ (List.mem_map.mpr ⟨i, hi, rfl⟩)
    refine ⟨compute_spf_for_node (Fabric.empty.build_spine_leaf S L).graph
      (leafName i), ?_⟩
    have hreach : Reachable (Fabric.empty.build_spine_leaf S L).graph
        (leafName i) (leafName j) := ⟨_, _, build_walk_two_hop hS hi hj⟩
    have hne : leafName j ≠ leafName i := fun hc => hij (leafName_inj hc).symm
    obtain ⟨⟨nh, d⟩, hv⟩ := (rtGet?_spf_isSome_iff hwf).mpr ⟨hreach, hne⟩
    obtain ⟨hshort, -, -⟩ := rtGet?_spf_sound hwf hv
    have hd : d = 20 := shortest_unique hshort
      (build_shortest_leaf_leaf hS hij hi hj)
    exact ⟨nh, install_routes_lookup hmem, hd ▸ hv⟩
  · intro S L a b rta nh d hrta hb
    have hwf := build_wf S L
    obtain ⟨ha, hrta'⟩ := install_routes_lookup_inv hrta
    subst hrta'
    obtain ⟨hshort, hne, -⟩ := rtGet?_spf_sound hwf hb
    have hbmem : b ∈ (Fabric.empty.build_spine_leaf S L).graph.nodes := by
      obtain ⟨⟨p, hw⟩, -⟩ := hshort
      rcases hw.trivial_or_mem hwf with ⟨heq, -, -⟩ | ⟨-, hmem⟩
      · exact absurd heq hne
      · exact hmem
    obtain ⟨nh', hv⟩ := spf_cost_symm hwf hb
    exact ⟨compute_spf_for_node (Fabric.empty.build_spine_leaf S L).graph b,
      nh', install_routes_lookup hbmem, hv⟩
  · constructor
    · left
      decide
    · decide

/-- Witness for C3 at concrete inputs. -/
theorem claim_leaf_costs_symmetric_witness :
    (∃ rt nh, dictGet? (install_routes_for_all
        (Fabric.empty.build_spine_leaf 1 2).graph) (leafName 1) = some rt ∧
      rtGet? rt (leafName 2) = some (nh, 20)) ∧
    (∃ rtb nh', dictGet? (install_routes_for_all
        (Fabric.empty.build_spine_leaf 2 3).graph) "L2" = some rtb ∧
      rtGet? rtb "L1" = some (nh', 20)) :=
  ⟨claim_leaf_costs_symmetric.1 1 2 1 2 (by decide) (by decide) (by decide)
      (by decide),
   claim_leaf_costs_symmetric.2.1 2 3 "L1" "L2"
     (compute_spf_for_node (Fabric.empty.build_spine_leaf 2 3).graph "L1")
     "S1" 20 (by decide) (by decide)⟩

/-- C4: `tunnels_for_vni` of an existing segment with a duplicate-free
member set of size n yields exactly n·(n−1)/2 pairs: every unordered
pair of distinct members exactly once, as ordered pairs `(x, y)` with
`x < y` lexicographically, listed in lexicographic order, with no pair
containing a non-member; a missing segment or one with fewer than two
members yields the empty sequence. -/
theorem claim_tunnels_for_vni (o : VXLANOverlay) (s : Nat)
    (hwf : ∀ kv ∈ o.vnis, kv.2.members.Nodup) :
    (dictGet? o.vnis s = none → o.tunnels_for_vni s = []) ∧
    (∀ v, dictGet? o.vnis s = some v →
      (v.members.length < 2 → o.tunnels_for_vni s = []) ∧
      (o.tunnels_for_vni s).length
        = v.members.length * (v.members.length - 1) / 2 ∧
      (∀ x y, (x, y) ∈ o.tunnels_for_vni s →
        x ∈ v.members ∧ y ∈ v.members ∧ strLt x y) ∧
      (∀ x y, x ∈ v.members → y ∈ v.members → strLt x y →
        (o.tunnels_for_vni s).count (x, y) = 1) ∧
      (o.tunnels_for_vni s).Pairwise pairLt) := by
  constructor
  · intro hnone
    unfold VXLANOverlay.tunnels_for_vni
    rw [hnone]
  · intro v hv
    have hnodup : v.members.Nodup := hwf (s, v) (dictGet?_mem hv)
    have hms : (sortStrings v.members).Nodup := sortStrings_nodup hnodup
    have hlt : (sortStrings v.members).Pairwise strLt :=
      sortStrings_pairwise_lt hnodup
    have htun : o.tunnels_for_vni s = pairsOf (sortStrings v.members) := by
      unfold VXLANOverlay.tunnels_for_vni
      rw [hv]
    refine ⟨?_, ?_, ?_, ?_, ?_⟩
    · intro hlen
      rw [htun]
      exact pairsOf_short (by rw [sortStrings_length]; exact hlen)
    · rw [htun, pairsOf_length_div, sortStrings_length]
    · intro x y hxy
      rw [htun] at hxy
      obtain ⟨hx, hy⟩ := pairsOf_mem_mem hxy
      exact ⟨sortStrings_mem.mp hx, sortStrings_mem.mp hy,
        pairsOf_rel hlt hxy⟩
    · intro x y hx hy hxy
      rw [htun]
      exact count_eq_one_of_mem_pairs (pairsOf_nodup hms)
        (pairsOf_complete hlt (sortStrings_mem.mpr hx)
          (sortStrings_mem.mpr hy) hxy)
    · rw [htun]
      exact pairsOf_pairwise hlt

/-- Witness for C4 at the demo overlay. -/
theorem claim_tunnels_for_vni_witness :
    ((build_overlay build_demo_fabric).tunnels_for_vni 10010).length
      = 3 * (3 - 1) / 2 := by
  have h := (claim_tunnels_for_vni (build_overlay build_demo_fabric) 10010
      (by decide)).2 (VNI.mk 10010 "customers-A" ["L1", "L2", "L3"])
      (by decide)
  exact h.2.1

/-- C5: `run_full_simulation` raises a `TypeError` for every argument
pair, because its first step calls `topology.Fabric(num_spines,
num_leaves)` while `Fabric.__init__` accepts no arguments. -/
theorem claim_run_full_simulation_error (num_spines num_leaves : Nat) :
    run_full_simulation num_spines num_leaves
      = Except.error "TypeError: Fabric() takes no arguments" := rfl

/-- C6 counterexample: `add_link` on an empty fabric with unregistered
endpoints raises no error, silently adds the endpoints as graph
vertices, and leaves them out of the node registry, so the claimed
rejection and the claimed vertex-set invariant both fail. -/
theorem claim_add_link_counterexample :
    "a" ∈ (Fabric.empty.add_link
      { a := "a", b := "b", cost := 5 }).graph.nodes ∧
    dictGet? (Fabric.empty.add_link
      { a := "a", b := "b", cost := 5 }).nodes "a" = none := by decide

/-- C6 amended: `add_link` does not validate its endpoints; for every
operation sequence in which each `add_link` references only
already-registered nodes, the graph's vertex set coincides with the
registered node set (and the edge set is the link set by
construction). -/
theorem claim_add_link_invariant (ops : List FabricOp)
    (hvalid : validLinkSeq Fabric.empty ops = true) :
    ∀ v, v ∈ (applyFabricOps ops).graph.nodes ↔
      (dictGet? (applyFabricOps ops).nodes v).isSome :=
  validLinkSeq_invariant ops Fabric.empty
    (by intro v; simp [Fabric.empty, dictGet?]) hvalid

/-- Witness for the amended C6 at a concrete sequence. -/
theorem claim_add_link_invariant_witness :
    ("n1" ∈ (applyFabricOps
      [FabricOp.addNode { name := "n1", role := "host", loopback := "1.1.1.1" },
       FabricOp.addNode { name := "n2", role := "host", loopback := "1.1.1.2" },
       FabricOp.addLink { a := "n1", b := "n2", cost := 3 }]).graph.nodes ↔
    (dictGet? (applyFabricOps
      [FabricOp.addNode { name := "n1", role := "host", loopback := "1.1.1.1" },
       FabricOp.addNode { name := "n2", role := "host", loopback := "1.1.1.2" },
       FabricOp.addLink { a := "n1", b := "n2", cost := 3 }]).nodes "n1").isSome) :=
  claim_add_link_invariant _ (by decide) "n1"

/-- C7: the key set of `compute_spf_for_node` is exactly the set of
vertices reachable from the source minus the source itself; unreachable
destinations are simply absent, and a source that is not a graph vertex
yields the empty table rather than an error. -/
theorem claim_spf_keys (g : Graph) (s : String) (hwf : g.Wf) :
    (s ∉ g.nodes → compute_spf_for_node g s = []) ∧
    (∀ dest, (∃ v, rtGet? (compute_spf_for_node g s) dest = some v) ↔
      (Reachable g s dest ∧ dest ≠ s)) :=
  ⟨fun hs => compute_spf_not_mem hs, fun _ => rtGet?_spf_isSome_iff hwf⟩

/-- Witness for C7 at concrete inputs. -/
theorem claim_spf_keys_witness :
    compute_spf_for_node (Fabric.empty.build_spine_leaf 2 3).graph "Z9" = [] ∧
    (Reachable (Fabric.empty.build_spine_leaf 2 3).graph "L1" "L2" ∧
      "L2" ≠ "L1") :=
  ⟨(claim_spf_keys (Fabric.empty.build_spine_leaf 2 3).graph "Z9"
      (by decide)).1 (by decide),
   ((claim_spf_keys (Fabric.empty.build_spine_leaf 2 3).graph "L1"
      (by decide)).2 "L2").mp ⟨("S1", 20), by decide⟩⟩

/-- C8: after every sequence of `add_vni` and `attach_vtep` operations
on a fresh overlay, an endpoint is in a segment's member set exactly
when the segment's id is in the endpoint's segment-id set. -/
theorem claim_overlay_consistent (ops : List OverlayOp) :
    Consistent (applyOverlayOps ops) :=
  (applyOverlayOps_invariant ops).1

/-- C9: attaching the same node to the same segment twice leaves the
member set with exactly one occurrence of the node and its size
unchanged by the second attachment. -/
theorem claim_attach_idempotent (o : VXLANOverlay) (hwf : OverlayWf o)
    (n ip : String) (ids : List Nat) (s : Nat) (hs : s ∈ ids) :
    ∃ v1 v2, dictGet? (o.attach_vtep n ip ids).vnis s = some v1 ∧
      dictGet? ((o.attach_vtep n ip ids).attach_vtep n ip ids).vnis s
        = some v2 ∧
      v2.members.count n = 1 ∧ v2.members.length = v1.members.length := by
  obtain ⟨v1, hv1, hmem, hnodup⟩ := attach_vtep_vnis_establish n ip hs hwf
  have hv2 := attach_vtep_vnis_stable ip ids hv1 hmem
  exact ⟨v1, v1, hv1, hv2, List.count_eq_one_of_mem hnodup hmem, rfl⟩

/-- Witness for C9 at a concrete overlay. -/
theorem claim_attach_idempotent_witness :
    ∃ v1 v2, dictGet? (VXLANOverlay.empty.attach_vtep "L1" "10.0.0.3"
        [7]).vnis 7 = some v1 ∧
      dictGet? ((VXLANOverlay.empty.attach_vtep "L1" "10.0.0.3"
        [7]).attach_vtep "L1" "10.0.0.3" [7]).vnis 7 = some v2 ∧
      v2.members.count "L1" = 1 ∧ v2.members.length = v1.members.length :=
  claim_attach_idempotent VXLANOverlay.empty (by decide) "L1" "10.0.0.3"
    [7] 7 (by decide)

/-- C10: every node record produced by `to_dict` carries the `vtep_ip`
field (with a null value rather than being omitted), null exactly when
the node has no tunnel-endpoint address; in a built spine-leaf fabric
spine records carry null and leaf records carry an address string. -/
theorem claim_to_dict_vtep :
    (∀ (f : Fabric) (rec : List (String × Value)), rec ∈ f.to_dict.nodes →
      ∃ kv ∈ f.nodes, dictGet? rec "vtep_ip"
        = some (optStrVal kv.2.vtep_ip)) ∧
    (∀ o : Option String, optStrVal o = Value.vNull ↔ o = none) ∧
    (∀ S L rec, rec ∈ (Fabric.empty.build_spine_leaf S L).to_dict.nodes →
      (dictGet? rec "role" = some (Value.vStr "spine") →
        dictGet? rec "vtep_ip" = some Value.vNull) ∧
      (dictGet? rec "role" = some (Value.vStr "leaf") →
        ∃ a, dictGet? rec "vtep_ip" = some (Value.vStr a))) := by
  refine ⟨?_, optStrVal_null_iff, ?_⟩
  · intro f rec hrec
    obtain ⟨kv, hkv, rfl⟩ := to_dict_nodes_mem.mp hrec
    exact ⟨kv, hkv, nodeRecord_vtep kv.2⟩
  · intro S L rec hrec
    obtain ⟨kv, hkv, rfl⟩ := to_dict_nodes_mem.mp hrec
    obtain ⟨hn, -, -⟩ := build_spine_leaf_spec S L
    rw [hn] at hkv
    rcases List.mem_append.mp hkv with h | h
    · obtain ⟨i, -, heq⟩ := List.mem_map.mp h
      rw [← heq]
      constructor
      · intro _
        exact nodeRecord_vtep (spineNode i)
      · intro hrole
        rw [nodeRecord_role] at hrole
        injection hrole with hrole
        injection hrole with hrole
        have hcontra : ("spine" : String) = "leaf" := hrole
        exact absurd hcontra (by decide)
    · obtain ⟨i, -, heq⟩ := List.mem_map.mp h
      rw [← heq]
      constructor
      · intro hrole
        rw [nodeRecord_role] at hrole
        injection hrole with hrole
        injection hrole with hrole
        have hcontra : ("leaf" : String) = "spine" := hrole
        exact absurd hcontra (by decide)
      · intro _
        exact ⟨vtep_ip (i + S), nodeRecord_vtep (leafNode S i)⟩

/-- Witness for C10 at the demo fabric. -/
theorem claim_to_dict_vtep_witness :
    dictGet? (nodeRecord (spineNode 1)) "vtep_ip" = some Value.vNull ∧
    (∃ a, dictGet? (nodeRecord (leafNode 2 1)) "vtep_ip"
      = some (Value.vStr a)) :=
  ⟨(claim_to_dict_vtep.2.2 2 3 (nodeRecord (spineNode 1))
      (by decide)).1 (by decide),
   (claim_to_dict_vtep.2.2 2 3 (nodeRecord (leafNode 2 1))
      (by decide)).2 (by decide)⟩

end VxlanOspf
